import Mathlib

/-!
Verification development for the josh filter engine
(repository `esrlabs/centralgithook`).

The development shallowly embeds the code of `src/filter/mod.rs`,
`src/history.rs` and `src/view_maps.rs`.  The tree primitives of
`src/filter/tree.rs`, the parser (`src/filter/parse.rs`), the optimiser
(`src/filter/opt.rs`) and the cache backing (`filter_cache`) are not part
of the source tree; those are modelled from the specification and marked
`Modelled from the spec:` in their doc comments.

Machine integers do not occur on the modelled paths; git object ids are
modelled as `Nat` (`0` is the null id) and content addressing of trees is
modelled by structural equality of canonical tree values (operations
never produce empty subtree entries, mirroring the pruning behaviour the
spec requires, e.g. invariant 4 of section 3).

Functions whose Rust counterparts recurse through data (or may diverge,
e.g. `apply` of a self-referential workspace) take an explicit fuel
argument and return `JErr.outOfFuel` when it runs out; all recursion is
structural so that every definition evaluates inside the kernel.
-/

set_option maxHeartbeats 1000000

namespace Josh

/- Error type standing for `JoshError`.  The Rust type is a string; we
keep structured variants for the errors the claims talk about.
`josh_error("filter not reversible")` is `notReversible`. -/
inductive JErr where
  | notReversible
  | badInsert
  | parseErr (s : String)
  | globErr (s : String)
  | missingObject (s : String)
  | cantApply (oid : Nat) (inner : JErr)
  | outOfFuel
deriving DecidableEq, Repr

instance {ε α : Type} [DecidableEq ε] [DecidableEq α] : DecidableEq (Except ε α) := by
  intro a b
  cases a <;> cases b
  case error.error x y =>
    exact if h : x = y then isTrue (by rw [h]) else isFalse (by intro hh; cases hh; exact h rfl)
  case error.ok x y => exact isFalse (by intro hh; cases hh)
  case ok.error x y => exact isFalse (by intro hh; cases hh)
  case ok.ok x y =>
    exact if h : x = y then isTrue (by rw [h]) else isFalse (by intro hh; cases hh; exact h rfl)

/- Git trees.  A tree is a list of named entries; an entry is a blob
(content-addressed by its content) or a subtree.  `EntL` is an inlined
entry list so that all recursion over trees is structural.  Two trees are
the same git object iff they are structurally equal; all operations below
keep trees canonical (no empty subtree entries). -/
mutual
inductive GTree where
  | blob (content : String)
  | node (entries : EntL)
inductive EntL where
  | nil
  | cons (name : String) (val : GTree) (rest : EntL)
end

mutual
def deqT : (a b : GTree) → Decidable (a = b)
  | .blob x, .blob y =>
    match decEq x y with
    | isTrue h => isTrue (by rw [h])
    | isFalse h => isFalse (by intro hh; cases hh; exact h rfl)
  | .blob _, .node _ => isFalse (by intro h; cases h)
  | .node _, .blob _ => isFalse (by intro h; cases h)
  | .node as, .node bs =>
    match deqL as bs with
    | isTrue h => isTrue (by rw [h])
    | isFalse h => isFalse (by intro hh; cases hh; exact h rfl)
def deqL : (as bs : EntL) → Decidable (as = bs)
  | .nil, .nil => isTrue rfl
  | .nil, .cons _ _ _ => isFalse (by intro h; cases h)
  | .cons _ _ _, .nil => isFalse (by intro h; cases h)
  | .cons n v r, .cons m w s =>
    match decEq n m, deqT v w, deqL r s with
    | isTrue h1, isTrue h2, isTrue h3 => isTrue (by rw [h1, h2, h3])
    | isFalse h1, _, _ => isFalse (by intro hh; cases hh; exact h1 rfl)
    | _, isFalse h2, _ => isFalse (by intro hh; cases hh; exact h2 rfl)
    | _, _, isFalse h3 => isFalse (by intro hh; cases hh; exact h3 rfl)
end

instance : DecidableEq GTree := deqT

instance : DecidableEq EntL := deqL

/- The canonical empty tree (`tree::empty` / `tree::empty_id`). -/
def emptyTree : GTree := .node .nil

/-- Convenience constructor for concrete trees. -/
def entsOf : List (String × GTree) → EntL
  | [] => .nil
  | (n, v) :: rest => .cons n v (entsOf rest)

/-- Convenience constructor for concrete trees. -/
def tN (l : List (String × GTree)) : GTree := .node (entsOf l)

def findE : EntL → String → Option GTree
  | .nil, _ => none
  | .cons m v rest, n => if m = n then some v else findE rest n

def eraseE : EntL → String → EntL
  | .nil, _ => .nil
  | .cons m v rest, n => if m = n then eraseE rest n else .cons m v (eraseE rest n)

def replaceE : EntL → String → GTree → EntL
  | .nil, n, v => .cons n v .nil
  | .cons m w rest, n, v => if m = n then .cons n v rest else .cons m w (replaceE rest n v)

/-- Set entry `n` to `v`; placing the empty tree removes the entry
(trees never contain empty subtrees). -/
def setE (es : EntL) (n : String) (v : GTree) : EntL :=
  match v with
  | .node .nil => eraseE es n
  | _ => replaceE es n v

def isEmptyTree : GTree → Bool
  | .node .nil => true
  | _ => false

/-- Path lookup, modelling `git2::Tree::get_path`.  `get_path` of the
empty path fails in git2, hence `none` for `[]`. -/
def lookupPath : GTree → List String → Option GTree
  | _, [] => none
  | .blob _, _ :: _ => none
  | .node es, [n] => findE es n
  | .node es, n :: m :: rest =>
    match findE es n with
    | some sub => lookupPath sub (m :: rest)
    | none => none

/-- Modelled from the spec: `tree::insert` (section 4.1) - place an
object at `path`, creating intermediate subtrees; for the empty path the
object itself is returned when it is a tree and an error otherwise.
Inserting the empty tree removes the entry (and prunes emptied parents),
which is what spec invariant 4 (`apply(f, empty_tree) == empty_tree`,
in particular for `Prefix`) requires of the missing implementation. -/
def insertT : GTree → List String → GTree → Except JErr GTree
  | _, [], .node es => .ok (.node es)
  | _, [], .blob _ => .error .badInsert
  | .blob _, _ :: _, _ => .error .badInsert
  | .node es, [n], obj => .ok (.node (setE es n obj))
  | .node es, n :: m :: rest, obj =>
    match insertT (match findE es n with
                   | some (.node ses) => GTree.node ses
                   | _ => GTree.node .nil) (m :: rest) obj with
    | .ok sub => .ok (.node (setE es n sub))
    | .error e => .error e

/-- Modelled from the spec: `tree::get_blob` - blob content at a path,
empty if absent or not a blob. -/
def getBlob (t : GTree) (path : List String) : String :=
  match lookupPath t path with
  | some (.blob c) => c
  | _ => ""

/- Modelled from the spec: `tree::overlay` - recursive merge; an entry
present in both recurses when both are trees, otherwise the second tree
wins; blobs never merge. -/
mutual
def overlayT : GTree → GTree → GTree
  | .node as, .node bs => .node (overlayL as bs)
  | _, b => b
def overlayL : EntL → EntL → EntL
  | .nil, bs => bs
  | .cons n av rest, bs =>
    match findE bs n with
    | some bv => .cons n (overlayT av bv) (overlayL rest (eraseE bs n))
    | none => .cons n av (overlayL rest bs)
end

/- Modelled from the spec: `tree::subtract` - entries of the first tree
not explained by the second; equal leaves are removed, recursive on
tree/tree pairs, mixed kinds keep the first tree's entry; empty subtrees
are pruned. -/
mutual
def subtractT : GTree → GTree → GTree
  | .node as, .node bs => .node (subtractL as bs)
  | a, _ => a
def subtractL : EntL → EntL → EntL
  | .nil, _ => .nil
  | .cons n av rest, bs =>
    match findE bs n with
    | none => .cons n av (subtractL rest bs)
    | some bv =>
      match av, bv with
      | .blob ca, .blob cb =>
        if ca = cb then subtractL rest bs else .cons n (.blob ca) (subtractL rest bs)
      | .node sas, .node sbs =>
        match subtractL sas sbs with
        | .nil => subtractL rest bs
        | .cons q w ss => .cons n (.node (.cons q w ss)) (subtractL rest bs)
      | _, _ => .cons n av (subtractL rest bs)
end

/- Modelled from the spec: `tree::remove_pred`.  The file defining it is
absent; per the Glob rows of sections 4.3 (the caller passes the positive
predicate `isblob && matches`) its net effect keeps exactly the blob
entries satisfying the predicate, recursing into directories and pruning
subtrees that become empty.  The predicate receives the full path from
the root and whether the entry is a blob; it is only consulted for
blobs. -/
mutual
def removePredT (pfx : List String) (t : GTree) (pred : List String → Bool → Bool) : GTree :=
  match t with
  | .blob c => .blob c
  | .node es => .node (removePredL pfx es pred)
def removePredL (pfx : List String) (es : EntL) (pred : List String → Bool → Bool) : EntL :=
  match es with
  | .nil => .nil
  | .cons n v rest =>
    match v with
    | .blob c =>
      if pred (pfx ++ [n]) true then .cons n (.blob c) (removePredL pfx rest pred)
      else removePredL pfx rest pred
    | .node ses =>
      match removePredL (pfx ++ [n]) ses pred with
      | .nil => removePredL pfx rest pred
      | .cons q w ss => .cons n (.node (.cons q w ss)) (removePredL pfx rest pred)
end

/- Modelled from the spec: `tree::dirtree` (used by `Dirs`) - collapses
the tree to its directory skeleton: blobs are dropped and every directory
receives a marker blob recording its presence. -/
mutual
def dirtreeT : GTree → GTree
  | .blob c => .blob c
  | .node es => .node (dirtreeL es)
def dirtreeL : EntL → EntL
  | .nil => .nil
  | .cons n v rest =>
    match v with
    | .blob _ => dirtreeL rest
    | .node ses => .cons n (.node (.cons "JOSH_DIR_MARKER" (.blob "") (dirtreeL ses))) (dirtreeL rest)
end

/-- Modelled from the spec: `tree::compose` - overlay the given trees in
order, later entries overriding earlier ones. -/
def treeComposeP : List (α × GTree) → GTree
  | l => l.foldl (fun acc p => overlayT acc p.2) emptyTree

/- ------------------------------------------------------------------ -/
/- Filter expressions (`src/filter/mod.rs`)                            -/
/- ------------------------------------------------------------------ -/

/-- The `Op` enum of `src/filter/mod.rs`.  `Op::Prefix` is named
`PrefixOp` here.  Paths (`std::path::PathBuf`) are lists of components.
Interned `Filter` handles are identified with their operator trees:
`to_filter`/`to_op` are the identity in the model, which is faithful
because interning maps structurally equal operator trees to the same
handle. -/
inductive Op where
  | Nop
  | Empty
  | Fold
  | Squash
  | Dirs
  | File (path : List String)
  | PrefixOp (path : List String)
  | Subdir (path : List String)
  | Workspace (path : List String)
  | Glob (pattern : String)
  | Compose (filters : List Op)
  | Chain (a b : Op)
  | Subtract (a b : Op)

/- Splitting a character list at slashes (structural replacement for
`String.splitOn`, which does not evaluate inside the kernel). -/
def splitSlashGo (acc : List Char) : List Char → List (List Char)
  | [] => [acc.reverse]
  | c :: cs => if c = '/' then acc.reverse :: splitSlashGo [] cs else splitSlashGo (c :: acc) cs

def parsePath (s : String) : List String :=
  if s = "" then [] else (splitSlashGo [] s.toList).map (fun cs => String.mk cs)

def renderPath (p : List String) : String :=
  match p with
  | [] => ""
  | [x] => x
  | x :: y :: rest => x ++ "/" ++ renderPath (y :: rest)

def strJoin (sep : String) : List String → String
  | [] => ""
  | [x] => x
  | x :: y :: rest => x ++ sep ++ strJoin sep (y :: rest)

def listStarts : List Char → List Char → Bool
  | _, [] => true
  | [], _ :: _ => false
  | c :: cs, p :: ps => c == p && listStarts cs ps

def strStarts (s pre : String) : Bool := listStarts s.toList pre.toList

def strDrop (s : String) (k : Nat) : String := String.mk (s.toList.drop k)

/- Model of the external `glob` crate as used by the source
(`Pattern::new` plus `matches_path_with` with `case_sensitive`,
`require_literal_separator` and `require_literal_leading_dot` all
active): patterns are split at literal slashes, `*` matches any run of
characters within one component, `?` one character, everything else is
literal; a wildcard never matches a leading dot; bracket classes are not
modelled and are rejected at compile time. -/
def globCompile (pat : String) : Except JErr (List (List Char)) :=
  if pat.toList.contains '[' then .error (.globErr pat)
  else .ok (splitSlashGo [] pat.toList)

def compMatch : Nat → List Char → List Char → Bool
  | 0, _, _ => false
  | _+1, [], [] => true
  | _+1, [], _ :: _ => false
  | n+1, '*' :: ps, [] => compMatch n ps []
  | n+1, '*' :: ps, c :: cs => compMatch n ps (c :: cs) || compMatch n ('*' :: ps) cs
  | n+1, '?' :: ps, _ :: cs => compMatch n ps cs
  | n+1, p :: ps, c :: cs => p == c && compMatch n ps cs
  | _+1, _ :: _, [] => false

def compMatchLD (p : List Char) (s : List Char) : Bool :=
  match s, p with
  | '.' :: _, '.' :: _ => compMatch (p.length + s.length + 1) p s
  | '.' :: _, _ => false
  | _, _ => compMatch (p.length + s.length + 1) p s

def globMatchL : List (List Char) → List String → Bool
  | [], [] => true
  | p :: ps, c :: cs => compMatchLD p c.toList && globMatchL ps cs
  | _, _ => false

/-- Modelled from the spec: `parse` (`src/filter/parse.rs` is absent).
Handles single atoms of the grammar of section 4.2; everything else is a
`ParseError`.  The claims under verification do not depend on the parsed
language fragment. -/
def parseFilter (s : String) : Except JErr Op :=
  if s = ":nop" then .ok .Nop
  else if s = ":empty" then .ok .Empty
  else if s = ":DIRS" then .ok .Dirs
  else if s = ":FOLD" then .ok .Fold
  else if s = ":SQUASH" then .ok .Squash
  else if strStarts s ":workspace=" then .ok (.Workspace (parsePath (strDrop s 11)))
  else if strStarts s ":prefix=" then .ok (.PrefixOp (parsePath (strDrop s 8)))
  else if strStarts s "::" then
    let t := strDrop s 2
    if t.toList.any (fun c => c == '*' || c == '?' || c == '[') then .ok (.Glob t)
    else .ok (.File (parsePath t))
  else if strStarts s ":/" then .ok (.Subdir (parsePath (strDrop s 2)))
  else .error (.parseErr s)

/- `spec2` / `spec` of `src/filter/mod.rs` (fuel-structural recursion
over the operator tree; fuel beyond the tree depth does not change the
result). -/
mutual
def specF : Nat → Op → String
  | 0, _ => ""
  | n+1, op =>
    match op with
    | .Compose fs => ":[" ++ strJoin "," (specList n fs) ++ "]"
    | .Subtract a b => ":subtract[" ++ specF n a ++ "," ++ specF n b ++ "]"
    | .Workspace path => ":workspace=" ++ renderPath path
    | .Nop => ":nop"
    | .Empty => ":empty"
    | .Dirs => ":DIRS"
    | .Fold => ":FOLD"
    | .Squash => ":SQUASH"
    | .Chain a b => specF n a ++ specF n b
    | .Subdir path => ":/" ++ renderPath path
    | .File path => "::" ++ renderPath path
    | .PrefixOp path => ":prefix=" ++ renderPath path
    | .Glob pattern => "::" ++ pattern
def specList : Nat → List Op → List String
  | 0, _ => []
  | _+1, [] => []
  | n+1, f :: rest => specF n f :: specList n rest
end

/-- The spec string used as cache key (`filters::spec`); a fixed fuel
larger than any operator tree occurring in this development keeps the
key independent of the caller's fuel. -/
def specKey (op : Op) : String := specF 1000 op

def composeFlatten : List Op → List Op
  | [] => []
  | .Compose inner :: rest => inner ++ composeFlatten rest
  | f :: rest => f :: composeFlatten rest

/-- Modelled from the spec: one top-level step of the normalisation rules
of section 4.2 (`src/filter/opt.rs` is absent). -/
def optTop : Op → Op
  | .Chain .Nop x => x
  | .Chain x .Nop => x
  | .Chain .Empty _ => .Empty
  | .Chain _ .Empty => .Empty
  | .Chain (.Subdir p1) (.PrefixOp p2) =>
    if p1 = p2 then .Nop else .Chain (.Subdir p1) (.PrefixOp p2)
  | .Chain (.PrefixOp p1) (.Subdir p2) =>
    if p1 = p2 then .Nop else .Chain (.PrefixOp p1) (.Subdir p2)
  | .Chain (.Chain a b) c => .Chain a (.Chain b c)
  | .Compose [] => .Empty
  | .Compose [x] => x
  | .Compose fs => .Compose (composeFlatten fs)
  | op => op

mutual
def optPass : Nat → Op → Op
  | 0, op => op
  | n+1, op =>
    optTop (match op with
            | .Chain a b => .Chain (optPass n a) (optPass n b)
            | .Subtract a b => .Subtract (optPass n a) (optPass n b)
            | .Compose fs => .Compose (optList n fs)
            | x => x)
def optList : Nat → List Op → List Op
  | 0, fs => fs
  | _+1, [] => []
  | n+1, f :: rest => optPass n f :: optList n rest
end

def optIter : Nat → Op → Op
  | 0, op => op
  | n+1, op => optIter n (optPass 64 op)

/-- Modelled from the spec: `opt::optimize` - rewrite with the rules of
section 4.2; a bounded number of bottom-up passes stands in for the
fixed-point iteration. -/
def optimizeK (op : Op) : Op := optIter 5 op

/-- Modelled from the spec: `opt::simplify` (used by `pretty`); the spec
describes a single normalisation, so it coincides with `optimize` in the
model. -/
def simplifyK (op : Op) : Op := optIter 5 op

def spacesS (k : Nat) : String := String.mk (List.replicate k ' ')

/- `pretty2` and its bracket-list helper `ff` (fuel-structural). -/
mutual
def pretty2F : Nat → Op → Nat → Bool → String
  | 0, _, _, _ => ""
  | n+1, op, indent, compose =>
    match op with
    | .Compose filters => ffF n filters "" indent
    | .Subtract af bf =>
      match af, bf with
      | .Nop, .Compose filters => ffF n filters "exclude" indent
      | .Nop, b => ":exclude[" ++ pretty2F n b indent false ++ "]"
      | a, b => ffF n [a, b] "subtract" (indent + 4)
    | .Chain a b =>
      match a, b with
      | .Subdir p1, .PrefixOp p2 =>
        if p1 = p2 then "::" ++ renderPath p1 ++ "/"
        else pretty2F n (.Subdir p1) indent false ++ pretty2F n (.PrefixOp p2) indent false
      | a, .PrefixOp p =>
        if compose then renderPath p ++ " = " ++ pretty2F n a indent false
        else pretty2F n a indent false ++ pretty2F n (.PrefixOp p) indent false
      | a, b => pretty2F n a indent false ++ pretty2F n b indent false
    | other => specKey other
def ffF : Nat → List Op → String → Nat → String
  | 0, _, _, _ => ""
  | n+1, filters, name, ind =>
    let ind2 := max ind 4
    let i := "\n" ++ spacesS ind2
    let joined := strJoin i (prettyList n filters (ind + 4))
    ":" ++ name ++ "[" ++ i ++ joined ++ "\n" ++ spacesS (ind2 - 4) ++ "]"
def prettyList : Nat → List Op → Nat → List String
  | 0, _, _ => []
  | _+1, [], _ => []
  | n+1, f :: rest, ind => pretty2F n f ind true :: prettyList n rest ind
end

/-- `pretty` of `src/filter/mod.rs`: simplify, then print; a top-level
`Compose` at indentation 0 prints as newline-joined entries. -/
def prettyK (filter : Op) (indent : Nat) : String :=
  let f := simplifyK filter
  match f, indent with
  | .Compose filters, 0 =>
    strJoin ("\n" ++ spacesS indent) (prettyList 1000 filters (indent + 4))
  | f, indent => pretty2F 1000 f indent true

/- ------------------------------------------------------------------ -/
/- Tree-level apply / unapply (`apply2` / `unapply2`)                  -/
/- ------------------------------------------------------------------ -/

def wsFile : String := "workspace.josh"

/- `apply2` and `unapply2` of `src/filter/mod.rs` (lines 371-464 and
477-593), with `applyEach` standing for the `filters.iter().map(...)`
collection in the `Compose` case of `apply2` and `unapplyCompose` for
the reverse loop in the `Compose` case of `unapply2`.  The fuel only
bounds recursion depth (the Rust code can recurse unboundedly through
`Workspace`). -/
mutual
def applyF : Nat → Op → GTree → Except JErr GTree
  | 0, _, _ => .error .outOfFuel
  | n+1, op, tree =>
    match op with
    | .Nop => .ok tree
    | .Empty => .ok emptyTree
    | .Fold => .ok tree
    | .Squash => .ok tree
    | .Glob pattern => do
      let pat ← globCompile pattern
      .ok (removePredT [] tree (fun path isblob => isblob && globMatchL pat path))
    | .File path =>
      match lookupPath tree path with
      | some (.blob c) => insertT emptyTree path (.blob c)
      | _ => .ok emptyTree
    | .Subdir path =>
      match lookupPath tree path with
      | some (.node es) => .ok (.node es)
      | _ => .ok emptyTree
    | .PrefixOp path => insertT emptyTree path tree
    | .Subtract a b => do
      let af ← applyF n a tree
      let bf ← applyF n b tree
      let bu ← unapplyF n b bf emptyTree
      let ba ← applyF n a bu
      .ok (subtractT af ba)
    | .Dirs => .ok (dirtreeT tree)
    | .Workspace path =>
      match parseFilter (getBlob tree (path ++ [wsFile])) with
      | .ok cw => applyF n (.Compose [.Subdir path, cw]) tree
      | .error _ => applyF n (.Subdir path) tree
    | .Compose filters => do
      let pairs ← applyEach n filters tree
      .ok (treeComposeP pairs)
    | .Chain a b => do
      let x ← applyF n a tree
      applyF n b x

def applyEach : Nat → List Op → GTree → Except JErr (List (Op × GTree))
  | 0, _, _ => .error .outOfFuel
  | _+1, [], _ => .ok []
  | n+1, f :: rest, tree => do
    let x ← applyF n f tree
    let xs ← applyEach n rest tree
    .ok ((f, x) :: xs)

def unapplyF : Nat → Op → GTree → GTree → Except JErr GTree
  | 0, _, _, _ => .error .outOfFuel
  | n+1, op, tree, parent_tree =>
    match op with
    | .Nop => .ok tree
    | .Empty => .ok parent_tree
    | .Chain a b => do
      let p ← applyF n a parent_tree
      let x ← unapplyF n b tree p
      unapplyF n a x parent_tree
    | .Workspace path => do
      let mapped ← parseFilter (getBlob tree [wsFile])
      let tree2 ← insertT tree [wsFile] (.blob (prettyK mapped 0 ++ "\n"))
      unapplyF n (.Compose [.Subdir path, mapped]) tree2 parent_tree
    | .Compose filters => unapplyCompose n filters.reverse tree parent_tree
    | .File path =>
      match lookupPath tree path with
      | some (.blob c) => insertT parent_tree path (.blob c)
      | _ => .ok emptyTree
    | .Subtract a b =>
      match a, b with
      | .Nop, b2 => do
        let bu ← unapplyF n b2 tree emptyTree
        .ok (overlayT parent_tree (subtractT tree bu))
      | _, _ => .error .notReversible
    | .Glob pattern => do
      let pat ← globCompile pattern
      .ok (overlayT parent_tree
            (removePredT [] tree (fun path isblob => isblob && globMatchL pat path)))
    | .PrefixOp path =>
      match lookupPath tree path with
      | some (.node es) => .ok (.node es)
      | _ => .ok emptyTree
    | .Subdir path => insertT parent_tree path tree
    | .Fold => .error .notReversible
    | .Squash => .error .notReversible
    | .Dirs => .error .notReversible

def unapplyCompose : Nat → List Op → GTree → GTree → Except JErr GTree
  | 0, _, _, _ => .error .outOfFuel
  | _+1, [], _, result => .ok result
  | n+1, other :: rest, remaining, result => do
    let from_empty ← unapplyF n other remaining emptyTree
    if from_empty = emptyTree then
      unapplyCompose n rest remaining result
    else do
      let result2 ← unapplyF n other remaining result
      let reapply ← applyF n other from_empty
      unapplyCompose n rest (subtractT remaining reapply) result2
end

/- ------------------------------------------------------------------ -/
/- Commits, repository, cache transaction (`src/history.rs`)           -/
/- ------------------------------------------------------------------ -/

/-- A commit object: id, tree, parent ids, author, committer, message.
Ids are `Nat`; `0` is the null id (`git2::Oid::zero()`). -/
structure Commit where
  cid : Nat
  ctree : GTree
  cparents : List Nat
  cauthor : String
  ccommitter : String
  cmessage : String
deriving DecidableEq

/-- The repository: an append-only store of commit objects, the refs,
and a source of fresh ids for newly written commits (content addressing
of commits is irrelevant to the claims; a fresh id soundly models that a
newly created commit differs from every existing one). -/
structure Repo where
  commits : List Commit
  refs : List (String × Nat)
  nextOid : Nat
deriving DecidableEq

def findCommit (r : Repo) (oid : Nat) : Option Commit :=
  if oid = 0 then none else r.commits.find? (fun c => c.cid == oid)

def odbExists (r : Repo) (oid : Nat) : Bool := (findCommit r oid).isSome

def mkCommitObj (r : Repo) (author committer message : String) (tree : GTree)
    (parentIds : List Nat) : Nat × Repo :=
  (r.nextOid,
   { commits := ⟨r.nextOid, tree, parentIds, author, committer, message⟩ :: r.commits,
     refs := r.refs, nextOid := r.nextOid + 1 })

def parentsOf (r : Repo) (oid : Nat) : List Nat :=
  match findCommit r oid with
  | some c => c.cparents
  | none => []

def addUniq (l : List Nat) (x : Nat) : List Nat := if l.contains x then l else l ++ [x]

def ancIter (r : Repo) : Nat → List Nat → List Nat
  | 0, s => s
  | n+1, s => ancIter r n ((s.flatMap (parentsOf r)).foldl addUniq s)

/-- Reflexive-transitive parent closure (reachability in the commit
graph); empty when the id does not resolve. -/
def ancestorsOf (r : Repo) (oid : Nat) : List Nat :=
  if (findCommit r oid).isSome then ancIter r r.commits.length [oid] else []

def topoGo (r : Repo) : Nat → List Nat → List Nat
  | 0, _ => []
  | n+1, pending =>
    match pending.find? (fun id => (parentsOf r id).all (fun p => !(pending.contains p))) with
    | some id => id :: topoGo r n (pending.filter (fun x => !(x == id)))
    | none => []

/-- Model of a libgit2 revwalk with `REVERSE | TOPOLOGICAL` sorting:
commits reachable from `push` but not from any of `hides`, parents
before children.  Git leaves the order of incomparable commits
unspecified; the model picks one such order deterministically. -/
def revwalkParentsFirst (r : Repo) (push : Nat) (hides : List Nat) : List Nat :=
  let hidden := hides.flatMap (ancestorsOf r)
  let pend := (ancestorsOf r push).filter (fun x => odbExists r x && !(hidden.contains x))
  topoGo r pend.length pend

/-- Model of a libgit2 revwalk with `TOPOLOGICAL` sorting (children
before parents). -/
def walkChildrenFirst (r : Repo) (push : Nat) (hides : List Nat) : List Nat :=
  (revwalkParentsFirst r push hides).reverse

/-- Model of `git2::Repository::merge_base_many`: fails (`none`) when
some id does not resolve or the ids share no common ancestor. -/
def mergeBaseMany (r : Repo) (ids : List Nat) : Option Nat :=
  if ids.all (fun i => (findCommit r i).isSome) then
    match ids with
    | [] => none
    | i :: rest =>
      (rest.foldl (fun acc j => acc.filter (fun a => (ancestorsOf r j).contains a))
        (ancestorsOf r i)).head?
  else none

/-- Modelled from the spec: `filter_cache::Transaction` (the
`filter_cache` module is not under `src/`) - a buffered view of the
mapping `(filter spec, original id) -> filtered id`, with the walk-depth
statistic `walks` that `walk2` maintains. -/
structure Transaction where
  cache : List ((String × Nat) × Nat)
  walks : Nat
deriving DecidableEq

def Transaction.new : Transaction := ⟨[], 0⟩

def assocCache : List ((String × Nat) × Nat) → String → Nat → Option Nat
  | [], _, _ => none
  | (k, v) :: rest, s, o => if k.1 = s ∧ k.2 = o then some v else assocCache rest s o

/-- Modelled from the spec: `Transaction::get` returns an entry only if
the stored id is the null id (the commit vanishes under the filter) or
the referenced object still exists in the object store (sections 3 and
4.6). -/
def Transaction.get (tr : Transaction) (r : Repo) (key : String) (oid : Nat) : Option Nat :=
  match assocCache tr.cache key oid with
  | some v => if v = 0 || odbExists r v then some v else none
  | none => none

def Transaction.insert (tr : Transaction) (key : String) (fromOid toOid : Nat) : Transaction :=
  ⟨((key, fromOid), toOid) :: tr.cache, tr.walks⟩

def mapME {α β : Type} (g : α → Except JErr β) : List α → Except JErr (List β)
  | [] => .ok []
  | x :: xs =>
    match g x with
    | .ok y =>
      match mapME g xs with
      | .ok ys => .ok (y :: ys)
      | .error e => .error e
    | .error e => .error e

def firstCached (tr : Transaction) (r : Repo) (key : String) : List Nat → Option Nat
  | [] => none
  | id :: rest =>
    if (Transaction.get tr r key id).isSome then some id else firstCached tr r key rest

def findKnownGo (r : Repo) (key : String) (input : Nat) (tr : Transaction) :
    Nat → List Nat → (List Nat × Nat)
  | 0, known => (known, 0)
  | n+1, known =>
    let wl := walkChildrenFirst r input known
    match firstCached tr r key wl with
    | some id => findKnownGo r key input tr n (known ++ [id])
    | none => (known, wl.length)

/-- `find_known` of `src/history.rs` (lines 132-161): repeat a
topological traversal from `input`, hiding commits already known to be
cached, until a pass finds no cached commit; returns the known set and
the number of commits lacking a cache entry. -/
def find_known (r : Repo) (f : Op) (input : Nat) (tr : Transaction) : List Nat × Nat :=
  findKnownGo r (specKey f) input tr (r.commits.length + 1) []

def all_equal (baseParents : List Nat) (ps : List Commit) : Bool :=
  baseParents == ps.map (fun c => c.cid)

/-- `rewrite_commit` of `src/history.rs` (lines 165-185): if the tree
and parents coincide with `base`, return `base` itself (this keeps
signed commits intact); otherwise write a new commit with `base`'s
author, committer and message. -/
def rewrite_commit (r : Repo) (base : Commit) (ps : List Commit) (tree : GTree) : Nat × Repo :=
  if base.ctree = tree ∧ all_equal base.cparents ps then (base.cid, r)
  else mkCommitObj r base.cauthor base.ccommitter base.cmessage tree (ps.map (fun c => c.cid))

/-- `select_parent_commits` of `src/history.rs` (lines 425-443).  The
original's parents are resolved through the repo; a missing parent
counts as a non-empty diff. -/
def select_parent_commits (r : Repo) (original : Commit) (filteredTree : GTree)
    (fpcs : List Commit) : List Commit :=
  let affects_filtered := fpcs.any (fun x => !(decide (filteredTree = x.ctree)))
  let all_diffs_empty := original.cparents.all (fun pid =>
    match findCommit r pid with
    | some p => decide (p.ctree = original.ctree)
    | none => false)
  if affects_filtered || all_diffs_empty then fpcs else []

/-- Modelled from the spec: `treeops::is_empty_root` (module not under
`src/`); per section 4.4 step 3 it recognises the empty tree. -/
def is_empty_root (t : GTree) : Bool := isEmptyTree t

/-- `create_filtered_commit2` of `src/history.rs` (lines 465-514). -/
def create_filtered_commit2 (r : Repo) (original : Commit)
    (filtered_parent_ids : List Nat) (filtered_tree : GTree) :
    Except JErr (Nat × Bool × Repo) :=
  let is_initial_merge :=
    decide (filtered_parent_ids.length > 1) && (mergeBaseMany r filtered_parent_ids).isNone
  match mapME (fun x => match findCommit r x with
                        | some pc => .ok pc
                        | none => .error (.missingObject "parent"))
        (filtered_parent_ids.filter (fun x => !(x == 0))) with
  | .error e => .error e
  | .ok fpcs0 =>
    let fpcs := if is_initial_merge then fpcs0.filter (fun x => !(isEmptyTree x.ctree)) else fpcs0
    let selected := select_parent_commits r original filtered_tree fpcs
    if selected.isEmpty && !(original.cparents.isEmpty && is_empty_root original.ctree) then
      match fpcs with
      | pc :: _ => .ok (pc.cid, false, r)
      | [] =>
        if isEmptyTree filtered_tree then .ok (0, false, r)
        else
          let (oid, r2) := rewrite_commit r original selected filtered_tree
          .ok (oid, true, r2)
    else
      let (oid, r2) := rewrite_commit r original selected filtered_tree
      .ok (oid, true, r2)

/-- `create_filtered_commit` of `src/history.rs` (lines 445-463):
`create_filtered_commit2` plus recording the result in the
transaction. -/
def create_filtered_commit (original : Commit) (fpids : List Nat) (ftree : GTree)
    (r : Repo) (tr : Transaction) (key : String) : Except JErr (Nat × Repo × Transaction) :=
  match create_filtered_commit2 r original fpids ftree with
  | .ok (oid, _isNew, r2) => .ok (oid, r2, Transaction.insert tr key original.cid oid)
  | .error e => .error e

/- ------------------------------------------------------------------ -/
/- Commit filter and history walk (`apply_to_commit2`, `walk2`)        -/
/- ------------------------------------------------------------------ -/

/- `apply_to_commit2` of `src/filter/mod.rs` (lines 186-360) and
`walk2` of `src/history.rs` (lines 18-91), mutually recursive through
the parent walks.  The helper functions stand for the iterator chains of
the source: `composeCommits` for the `Compose` arm's
`filters.iter().map(apply_to_commit)`, `extraParentsLoop` for the
`Workspace` arm's extra-parent computation, `walkParents` for
`commit.parents().map(walk2)`, `finishCommit` for the common tail
(filtered parent ids plus `create_filtered_commit`), `walkLoop` for the
revwalk loop in `walk2`.  State (`Repo`, `Transaction`) is threaded
explicitly. -/
mutual
def apply_to_commit2 : Nat → Op → Commit → Repo → Transaction →
    Except JErr (Nat × Repo × Transaction)
  | 0, _, _, _, _ => .error .outOfFuel
  | n+1, op, commit, r, tr =>
    let f := optimizeK op
    match f with
    | .Nop => .ok (commit.cid, r, tr)
    | .Empty => .ok (0, r, tr)
    | .Chain a b =>
      match apply_to_commit2 n a commit r tr with
      | .error e => .error e
      | .ok (rid, r2, tr2) =>
        match findCommit r2 rid with
        | some rc => apply_to_commit2 n b rc r2 tr2
        | none => .ok (0, r2, tr2)
    | .Squash =>
      let (oid, r2) := rewrite_commit r commit [] commit.ctree
      .ok (oid, r2, tr)
    | f2 =>
      match Transaction.get tr r (specKey f2) commit.cid with
      | some oid => .ok (oid, r, tr)
      | none =>
        match f2 with
        | .Compose fs =>
          match composeCommits n fs commit r tr with
          | .error e => .error e
          | .ok (ids, r2, tr2) =>
            let nonzero := (fs.zip ids).filter (fun p => !(p.2 == 0))
            match mapME (fun p => match findCommit r2 p.2 with
                                  | some fc => .ok (p.1, fc.ctree)
                                  | none => .error (.missingObject "compose")) nonzero with
            | .error e => .error e
            | .ok pairs => finishCommit n (.Compose fs) commit (treeComposeP pairs) r2 tr2
        | .Workspace ws =>
          match walkParents n (.Workspace ws) commit.cparents r tr with
          | .error e => .error e
          | .ok (normal_parents, r2, tr2) =>
            let cw := match parseFilter (getBlob commit.ctree (ws ++ [wsFile])) with
                      | .ok x => x
                      | .error _ => Op.Empty
            match mapME (fun pid => match findCommit r2 pid with
                                    | some pc => .ok pc
                                    | none => .error (.missingObject "parent")) commit.cparents with
            | .error e => .error e
            | .ok pcs =>
              match extraParentsLoop n ws cw pcs r2 tr2 with
              | .error e => .error e
              | .ok (extra_parents, r3, tr3) =>
                match applyF n (.Workspace ws) commit.ctree with
                | .error e => .error e
                | .ok ftree =>
                  create_filtered_commit commit (normal_parents ++ extra_parents) ftree r3 tr3
                    (specKey (.Workspace ws))
        | .Fold =>
          match walkParents n .Fold commit.cparents r tr with
          | .error e => .error e
          | .ok (fpids, r2, tr2) =>
            match mapME (fun x => match findCommit r2 x with
                                  | some fc => .ok fc.ctree
                                  | none => .error (.missingObject "fold")) fpids with
            | .error e => .error e
            | .ok ptrees =>
              finishCommit n .Fold commit (ptrees.foldl overlayT commit.ctree) r2 tr2
        | .Subtract a b =>
          match apply_to_commit2 n a commit r tr with
          | .error e => .error e
          | .ok (aid, r2, tr2) =>
            let af := match findCommit r2 aid with
                      | some x => x.ctree
                      | none => emptyTree
            match apply_to_commit2 n b commit r2 tr2 with
            | .error e => .error e
            | .ok (bid, r3, tr3) =>
              let bf := match findCommit r3 bid with
                        | some x => x.ctree
                        | none => emptyTree
              match unapplyF n b bf emptyTree with
              | .error e => .error e
              | .ok bu =>
                match applyF n a bu with
                | .error e => .error e
                | .ok ba => finishCommit n (.Subtract a b) commit (subtractT af ba) r3 tr3
        | other =>
          match applyF n other commit.ctree with
          | .error e => .error e
          | .ok ftree => finishCommit n other commit ftree r tr

def composeCommits : Nat → List Op → Commit → Repo → Transaction →
    Except JErr (List Nat × Repo × Transaction)
  | 0, _, _, _, _ => .error .outOfFuel
  | _+1, [], _, r, tr => .ok ([], r, tr)
  | n+1, g :: rest, commit, r, tr =>
    match apply_to_commit2 n g commit r tr with
    | .error e => .error e
    | .ok (x, r2, tr2) =>
      match composeCommits n rest commit r2 tr2 with
      | .error e => .error e
      | .ok (xs, r3, tr3) => .ok (x :: xs, r3, tr3)

def extraParentsLoop : Nat → List String → Op → List Commit → Repo → Transaction →
    Except JErr (List Nat × Repo × Transaction)
  | 0, _, _, _, _, _ => .error .outOfFuel
  | _+1, _, _, [], r, tr => .ok ([], r, tr)
  | n+1, ws, cw, pc :: rest, r, tr =>
    let pcw := match parseFilter (getBlob pc.ctree (ws ++ [wsFile])) with
               | .ok x => x
               | .error _ => Op.Empty
    match apply_to_commit2 n (.Subtract cw pcw) pc r tr with
    | .error e => .error e
    | .ok (x, r2, tr2) =>
      match extraParentsLoop n ws cw rest r2 tr2 with
      | .error e => .error e
      | .ok (xs, r3, tr3) => .ok (x :: xs, r3, tr3)

def finishCommit : Nat → Op → Commit → GTree → Repo → Transaction →
    Except JErr (Nat × Repo × Transaction)
  | 0, _, _, _, _, _ => .error .outOfFuel
  | n+1, f, commit, ftree, r, tr =>
    match walkParents n f commit.cparents r tr with
    | .error e => .error e
    | .ok (fpids, r2, tr2) => create_filtered_commit commit fpids ftree r2 tr2 (specKey f)

def walkParents : Nat → Op → List Nat → Repo → Transaction →
    Except JErr (List Nat × Repo × Transaction)
  | 0, _, _, _, _ => .error .outOfFuel
  | _+1, _, [], r, tr => .ok ([], r, tr)
  | n+1, f, p :: ps, r, tr =>
    match walk2 n f p r tr with
    | .error e => .error e
    | .ok (x, r2, tr2) =>
      match walkParents n f ps r2 tr2 with
      | .error e => .error e
      | .ok (xs, r3, tr3) => .ok (x :: xs, r3, tr3)

def walk2 : Nat → Op → Nat → Repo → Transaction → Except JErr (Nat × Repo × Transaction)
  | 0, _, _, _, _ => .error .outOfFuel
  | n+1, f, input, r, tr =>
    match findCommit r input with
    | none => .ok (0, r, tr)
    | some _ =>
      match Transaction.get tr r (specKey f) input with
      | some oid => .ok (oid, r, tr)
      | none =>
        let known := (find_known r f input tr).1
        let wlist := revwalkParentsFirst r input known
        let tr2 := { tr with walks := tr.walks + 1 }
        match walkLoop n f wlist r tr2 with
        | .error e => .error e
        | .ok (r3, tr3) =>
          let tr4 := { tr3 with walks := tr3.walks - 1 }
          match findCommit r3 input with
          | some c2 => apply_to_commit2 n f c2 r3 tr4
          | none => .error (.missingObject "input")

def walkLoop : Nat → Op → List Nat → Repo → Transaction → Except JErr (Repo × Transaction)
  | 0, _, _, _, _ => .error .outOfFuel
  | _+1, _, [], r, tr => .ok (r, tr)
  | n+1, f, id :: rest, r, tr =>
    match findCommit r id with
    | none => .error (.missingObject "walk")
    | some c =>
      match apply_to_commit2 n f c r tr with
      | .error e => .error e
      | .ok (_, r2, tr2) => walkLoop n f rest r2 tr2
end

/-- `walk` of `src/history.rs` (lines 3-16): `walk2` with a fresh
transaction. -/
def walkF (fuel : Nat) (r : Repo) (f : Op) (input : Nat) :
    Except JErr (Nat × Repo × Transaction) :=
  walk2 fuel f input r Transaction.new

/- ------------------------------------------------------------------ -/
/- find_original / unapply_filter / refs (`src/history.rs`)            -/
/- ------------------------------------------------------------------ -/

/-- Return type of `unapply_filter`.  The enum itself (`UnapplyFilter`,
`UnapplyView` in the caller `josh-proxy/src/lib.rs`) is declared in the
crate root, which is not under `src/`; the `BranchDoesNotExist` variant
is modelled from the caller and the spec. -/
inductive UnapplyFilter where
  | Done (oid : Nat)
  | RejectMerge (parent_count : Nat)
  | BranchDoesNotExist
deriving DecidableEq, Repr

def assocN : List (Nat × Nat) → Nat → Option Nat
  | [], _ => none
  | (k, v) :: rest, x => if k = x then some v else assocN rest x

def findOrigLoop : Nat → Repo → List (Nat × Nat) → Op → Nat → List Nat →
    Except JErr (Nat × Repo × List (Nat × Nat))
  | 0, _, _, _, _, _ => .error .outOfFuel
  | _+1, r, bm, _, _, [] => .ok (0, r, bm)
  | n+1, r, bm, f, filtered, id :: rest =>
    match findCommit r id with
    | none => .error (.missingObject "original")
    | some oc =>
      match apply_to_commit2 n f oc r Transaction.new with
      | .error e => .error e
      | .ok (res, r2, _) =>
        if res = filtered then .ok (id, r2, (filtered, id) :: bm)
        else findOrigLoop n r2 bm f filtered rest

/-- `find_original` of `src/history.rs` (lines 93-130): null base short
circuits to the null id; then the memo map; then a full `walk` with a
fresh transaction (whose result is recorded under the key
`contained_in`), and a topological enumeration of the ancestors of
`contained_in`, applying the filter to each with a fresh transaction
until the result matches `filtered`; null id when nothing matches. -/
def find_original : Nat → Repo → List (Nat × Nat) → Op → Nat → Nat →
    Except JErr (Nat × Repo × List (Nat × Nat))
  | 0, _, _, _, _, _ => .error .outOfFuel
  | n+1, r, bm, f, contained_in, filtered =>
    if contained_in = 0 then .ok (0, r, bm)
    else
      match assocN bm filtered with
      | some original => .ok (original, r, bm)
      | none =>
        match walkF n r f contained_in with
        | .error e => .error e
        | .ok (oid, r2, _) =>
          let bm2 := if oid ≠ 0 then (contained_in, oid) :: bm else bm
          findOrigLoop n r2 bm2 f filtered (walkChildrenFirst r2 contained_in [])

def findOrigParents : Nat → Repo → List (Nat × Nat) → Op → Nat → List Nat →
    Except JErr (List Nat × Repo × List (Nat × Nat))
  | 0, _, _, _, _, _ => .error .outOfFuel
  | _+1, r, bm, _, _, [] => .ok ([], r, bm)
  | n+1, r, bm, f, uo, pid :: rest =>
    match find_original n r bm f uo pid with
    | .error e => .error e
    | .ok (x, r2, bm2) =>
      match findOrigParents n r2 bm2 f uo rest with
      | .error e => .error e
      | .ok (xs, r3, bm3) => .ok (x :: xs, r3, bm3)

/-- The `HashSet` of candidate trees of `unapply_filter`: duplicates
collapse; the number of distinct elements is the set's `len()`. -/
def dedupTrees : List GTree → List GTree
  | [] => []
  | t :: rest =>
    let d := dedupTrees rest
    if d.contains t then d else t :: d

/-- The body of `unapply_filter`'s revwalk loop (`src/history.rs`
lines 224-338), one visited filtered commit per list element:
resolve the filtered parents to originals, drop unresolved (null)
originals, unapply the commit's tree against each original parent's
tree, deduplicate the candidate trees; one candidate - rewrite with it,
none - unapply against the empty tree (unrelated history), two or more -
return `RejectMerge` with the number of distinct candidates.  Errors of
the per-parent unapply are wrapped (`Can't apply ...`), the
unrelated-history unapply error is propagated as is. -/
def unapplyFilterLoop : Nat → Repo → List (Nat × Nat) → Op → Nat → List Nat → Nat →
    Except JErr (UnapplyFilter × Repo)
  | 0, _, _, _, _, _, _ => .error .outOfFuel
  | _+1, r, _, _, _, [], ret => .ok (.Done ret, r)
  | n+1, r, bm, f, uo, rev :: rest, ret =>
    match findCommit r rev with
    | none => .error (.missingObject "rev")
    | some module_commit =>
      if (assocN bm module_commit.cid).isSome then
        unapplyFilterLoop n r bm f uo rest ret
      else
        match findOrigParents n r bm f uo module_commit.cparents with
        | .error e => .error e
        | .ok (origIds0, r2, bm2) =>
          let origIds := origIds0.filter (fun i => !(i == 0))
          match mapME (fun i => match findCommit r2 i with
                                | some c => .ok c
                                | none => .error (.missingObject "orig")) origIds with
          | .error e => .error e
          | .ok original_parents =>
            match mapME (fun x => unapplyF n f module_commit.ctree x.ctree) original_parents with
            | .error e => .error (.cantApply module_commit.cid e)
            | .ok trees =>
              let new_trees := dedupTrees trees
              match new_trees with
              | [t] =>
                let (ret2, r3) := rewrite_commit r2 module_commit original_parents t
                unapplyFilterLoop n r3 ((module_commit.cid, ret2) :: bm2) f uo rest ret2
              | [] =>
                match unapplyF n f module_commit.ctree emptyTree with
                | .error e => .error e
                | .ok t =>
                  let (ret2, r3) := rewrite_commit r2 module_commit original_parents t
                  unapplyFilterLoop n r3 ((module_commit.cid, ret2) :: bm2) f uo rest ret2
              | _ :: _ :: _ => .ok (.RejectMerge new_trees.length, r2)

/-- `unapply_filter` of `src/history.rs` (lines 201-342). -/
def unapply_filter (fuel : Nat) (r : Repo) (f : Op) (unfiltered_old oldId newId : Nat) :
    Except JErr (UnapplyFilter × Repo) :=
  match fuel with
  | 0 => .error .outOfFuel
  | n+1 =>
    let hides := if (findCommit r oldId).isSome then [oldId] else []
    let wl := revwalkParentsFirst r newId hides
    match find_original n r [] f unfiltered_old newId with
    | .error e => .error e
    | .ok (ret, r2, bm) => unapplyFilterLoop n r2 bm f unfiltered_old wl ret

def lookupRefL : List (String × Nat) → String → Option Nat
  | [], _ => none
  | (m, v) :: rest, name => if m = name then some v else lookupRefL rest name

def resolveRef (r : Repo) (name : String) : Option Nat := lookupRefL r.refs name

def setRefL : List (String × Nat) → String → Nat → List (String × Nat)
  | [], name, oid => [(name, oid)]
  | (m, v) :: rest, name, oid =>
    if m = name then (name, oid) :: rest else (m, v) :: setRefL rest name oid

/-- Model of `Repository::reference(name, oid, force, ..)`: create or
force-update; never deletes. -/
def setRef (r : Repo) (name : String) (oid : Nat) : Repo :=
  { r with refs := setRefL r.refs name oid }

/-- `transform_commit` of `src/history.rs` (lines 344-405): resolve the
source ref (count 0 when absent), filter its tip with a fresh
transaction, count the pair when the filtered id differs from the
current target of the destination ref, and (force-)update the
destination ref when the filtered id is non-null. -/
def transform_commit (fuel : Nat) (r : Repo) (f : Op) (from_refsname to_refname : String) :
    Except JErr (Nat × Repo) :=
  match fuel with
  | 0 => .error .outOfFuel
  | n+1 =>
    match resolveRef r from_refsname with
    | none => .ok (0, r)
    | some oid =>
      match findCommit r oid with
      | none => .error (.missingObject "peel")
      | some original_commit =>
        match apply_to_commit2 n f original_commit r Transaction.new with
        | .error e => .error e
        | .ok (filter_commit, r2, _) =>
          let previous := (resolveRef r2 to_refname).getD 0
          let updated_count := if filter_commit ≠ previous then 1 else 0
          let r3 := if filter_commit ≠ 0 then setRef r2 to_refname filter_commit else r2
          .ok (updated_count, r3)

/-- `apply_filter_to_refs` of `src/history.rs` (lines 407-423):
`transform_commit` on every pair, summing the counts. -/
def apply_filter_to_refs : Nat → Repo → Op → List (String × String) →
    Except JErr (Nat × Repo)
  | 0, _, _, _ => .error .outOfFuel
  | _+1, r, _, [] => .ok (0, r)
  | n+1, r, f, (k, v) :: rest =>
    match transform_commit n r f k v with
    | .error e => .error e
    | .ok (c1, r2) =>
      match apply_filter_to_refs n r2 f rest with
      | .error e => .error e
      | .ok (c2, r3) => .ok (c1 + c2, r3)

/- ------------------------------------------------------------------ -/
/- The cache of `src/view_maps.rs`                                     -/
/- ------------------------------------------------------------------ -/

/-- `ViewMaps` of `src/view_maps.rs`: per filter-spec maps from original
to filtered id, with an optional upstream.  The `Option<Arc<RwLock<..>>>`
upstream is inlined into the two constructors so that recursion through
the chain is structural. -/
inductive ViewMaps where
  | base (maps : List (String × List (Nat × Nat)))
  | layered (maps : List (String × List (Nat × Nat))) (upsteam : ViewMaps)

def lookupStr : List (String × List (Nat × Nat)) → String → Option (List (Nat × Nat))
  | [], _ => none
  | (k, m) :: rest, s => if k = s then some m else lookupStr rest s

/-- `ViewMaps::get` (`src/view_maps.rs` lines 19-30): local map first,
then the upstream, null id when absent.  No object-store validation
happens here. -/
def ViewMaps.get : ViewMaps → String → Nat → Nat
  | .base maps, viewstr, fromOid =>
    (match lookupStr maps viewstr with
     | some m =>
       match assocN m fromOid with
       | some oid => some oid
       | none => none
     | none => none).getD 0
  | .layered maps up, viewstr, fromOid =>
    match lookupStr maps viewstr with
    | some m =>
      match assocN m fromOid with
      | some oid => oid
      | none => ViewMaps.get up viewstr fromOid
    | none => ViewMaps.get up viewstr fromOid

/-- `ViewMaps::has` (`src/view_maps.rs` lines 32-46): when the local map
holds the key, the entry counts as cached only if the stored id is null
or the object still exists in the object database; otherwise the
upstream is consulted. -/
def ViewMaps.has : ViewMaps → Repo → String → Nat → Bool
  | .base maps, repo, viewstr, fromOid =>
    (match lookupStr maps viewstr with
     | some m =>
       if (assocN m fromOid).isSome then
         some ((ViewMaps.base maps).get viewstr fromOid)
       else none
     | none => none).elim false (fun oid => oid == 0 || odbExists repo oid)
  | .layered maps up, repo, viewstr, fromOid =>
    match lookupStr maps viewstr with
    | some m =>
      if (assocN m fromOid).isSome then
        let oid := (ViewMaps.layered maps up).get viewstr fromOid
        oid == 0 || odbExists repo oid
      else ViewMaps.has up repo viewstr fromOid
    | none => ViewMaps.has up repo viewstr fromOid

/- ------------------------------------------------------------------ -/
/- Projections used in concrete evaluations                            -/
/- ------------------------------------------------------------------ -/

def resOid : Except JErr (Nat × Repo × Transaction) → Option Nat
  | .ok (x, _, _) => some x
  | .error _ => none

def resUF : Except JErr (UnapplyFilter × Repo) → Option UnapplyFilter
  | .ok (x, _) => some x
  | .error _ => none

/- ------------------------------------------------------------------ -/
/- Claim C10                                                           -/
/- ------------------------------------------------------------------ -/

/-- Claim C10: for every filter `f` and every input id that does not
resolve to a commit in the repository, `walk2` returns the null (zero)
id (and leaves the state untouched) rather than an error
(`src/history.rs` lines 26-28). -/
theorem claim_C10 (n : Nat) (f : Op) (input : Nat) (r : Repo) (tr : Transaction)
    (h : findCommit r input = none) :
    walk2 (n+1) f input r tr = .ok (0, r, tr) := by
  simp [walk2, h]

theorem claim_C10_witness :
    findCommit ⟨[], [], 1⟩ 5 = none ∧
      walk2 1 .Nop 5 ⟨[], [], 1⟩ Transaction.new = .ok (0, ⟨[], [], 1⟩, Transaction.new) :=
  ⟨by decide, claim_C10 0 .Nop 5 ⟨[], [], 1⟩ Transaction.new (by decide)⟩

/- ------------------------------------------------------------------ -/
/- Claim C8                                                            -/
/- ------------------------------------------------------------------ -/

/-- Claim C8 (amended): it is `ViewMaps::has`, not `ViewMaps::get`,
that validates cache entries against the object store: whenever `has`
reports an entry as cached, the id `get` returns for it is either the
null id (the commit vanishes under the filter) or an object that still
exists in the object database.  (`get` itself returns the stored id
without any existence check - see the counterexample.) -/
theorem claim_C8 (vm : ViewMaps) (r : Repo) (viewstr : String) (fromOid : Nat)
    (h : ViewMaps.has vm r viewstr fromOid = true) :
    ViewMaps.get vm viewstr fromOid = 0 ∨
      odbExists r (ViewMaps.get vm viewstr fromOid) = true := by
  induction vm with
  | base maps =>
    unfold ViewMaps.has at h
    unfold ViewMaps.get
    cases hL : lookupStr maps viewstr with
    | none => simp [hL] at h
    | some m =>
      cases hA : assocN m fromOid with
      | none => simp [hL, hA] at h
      | some v =>
        simp only [hL, hA, Option.isSome_some, if_true] at h
        unfold ViewMaps.get at h
        simp only [hL, hA] at h ⊢
        rcases Bool.or_eq_true_iff.mp h with h1 | h1
        · exact Or.inl (by simpa using h1)
        · exact Or.inr h1
  | layered maps up ih =>
    unfold ViewMaps.has at h
    unfold ViewMaps.get
    cases hL : lookupStr maps viewstr with
    | none =>
      simp only [hL] at h
      exact ih h
    | some m =>
      cases hA : assocN m fromOid with
      | none =>
        simp only [hL, hA, Option.isSome_none, Bool.false_eq_true, if_false] at h
        simp only [hA]
        exact ih h
      | some v =>
        simp only [hL, hA, Option.isSome_some, if_true] at h
        unfold ViewMaps.get at h
        simp only [hL, hA] at h ⊢
        rcases Bool.or_eq_true_iff.mp h with h1 | h1
        · exact Or.inl (by simpa using h1)
        · exact Or.inr h1

/-- Claim C8, counterexample to the claim as stated: `get` returns the
stored filtered id `7` although no such object exists in the object
database (it was garbage-collected), and the id is not the null id;
the validation the claim ascribes to every lookup lives in `has`,
which indeed reports a miss. -/
theorem claim_C8_counterexample :
    ViewMaps.get (.base [(":/sub", [(5, 7)])]) ":/sub" 5 = 7 ∧
      odbExists ⟨[], [], 1⟩ 7 = false ∧ (7 : Nat) ≠ 0 ∧
      ViewMaps.has (.base [(":/sub", [(5, 7)])]) ⟨[], [], 1⟩ ":/sub" 5 = false := by
  decide

theorem claim_C8_witness :
    ViewMaps.has (.base [(":/sub", [(5, 7)])]) ⟨[⟨7, .node .nil, [], "a", "a", "m"⟩], [], 8⟩ ":/sub" 5 = true ∧
      (ViewMaps.get (.base [(":/sub", [(5, 7)])]) ":/sub" 5 = 0 ∨
        odbExists ⟨[⟨7, .node .nil, [], "a", "a", "m"⟩], [], 8⟩
          (ViewMaps.get (.base [(":/sub", [(5, 7)])]) ":/sub" 5) = true) :=
  ⟨by decide,
   claim_C8 (.base [(":/sub", [(5, 7)])]) ⟨[⟨7, .node .nil, [], "a", "a", "m"⟩], [], 8⟩ ":/sub" 5 (by decide)⟩

/- ------------------------------------------------------------------ -/
/- Claim C3                                                            -/
/- ------------------------------------------------------------------ -/

/-- Claim C3 (amended): `unapply2` on `Subtract(a, b)` with `a ≠ Nop`
fails with `FilterNotReversible` for every tree and parent tree; with
`a = Nop` it behaves as exclude - `overlay(parent, subtract(t,
unapply(b, t, empty)))` - and succeeds whenever the inner
`unapply(b, t, empty_tree)` succeeds (the claim's unconditional
"succeeds" fails when `b` is itself not reversible, see the
counterexample). -/
theorem claim_C3 (n : Nat) (a b : Op) (t parent : GTree) :
    (a ≠ .Nop → unapplyF (n+1) (.Subtract a b) t parent = .error .notReversible) ∧
    (∀ u, a = .Nop → unapplyF n b t emptyTree = .ok u →
      unapplyF (n+1) (.Subtract a b) t parent = .ok (overlayT parent (subtractT t u))) := by
  constructor
  · intro ha
    cases a <;> simp_all [unapplyF]
  · intro u ha hb
    subst ha
    simp only [unapplyF, hb]
    rfl

/-- Claim C3, counterexample to the claim as stated:
`unapply(Subtract(Nop, Fold), t, p)` does not succeed - the inner
unapply of `Fold` fails, and the error propagates. -/
theorem claim_C3_counterexample :
    unapplyF 5 (.Subtract .Nop .Fold) emptyTree emptyTree = .error .notReversible := by
  decide

theorem claim_C3_witness :
    (unapplyF 3 (.Subtract .Fold .Nop) emptyTree emptyTree = .error .notReversible) ∧
      (unapplyF 3 (.Subtract .Nop (.Subdir ["a"])) (.node (.cons "z" (.blob "1") .nil))
          (.node (.cons "q" (.blob "2") .nil)) =
        .ok (overlayT (.node (.cons "q" (.blob "2") .nil))
              (subtractT (.node (.cons "z" (.blob "1") .nil))
                (.node (.cons "a" (.node (.cons "z" (.blob "1") .nil)) .nil))))) :=
  ⟨(claim_C3 2 .Fold .Nop emptyTree emptyTree).1 (fun h => nomatch h),
   (claim_C3 2 .Nop (.Subdir ["a"]) (.node (.cons "z" (.blob "1") .nil))
       (.node (.cons "q" (.blob "2") .nil))).2
     (.node (.cons "a" (.node (.cons "z" (.blob "1") .nil)) .nil)) rfl (by decide)⟩

/- ------------------------------------------------------------------ -/
/- Claim C9                                                            -/
/- ------------------------------------------------------------------ -/

@[simp]
theorem exbind_ok {α β : Type} (a : α) (g : α → Except JErr β) :
    (Except.ok a : Except JErr α) >>= g = g a := rfl

@[simp]
theorem exbind_err {α β : Type} (e : JErr) (g : α → Except JErr β) :
    (Except.error e : Except JErr α) >>= g = Except.error e := rfl

theorem lookupPath_empty : (p : List String) → lookupPath emptyTree p = none
  | [] => rfl
  | [_] => rfl
  | _ :: _ :: _ => rfl

theorem insertT_empty_empty : (p : List String) → insertT emptyTree p emptyTree = .ok emptyTree
  | [] => rfl
  | [_] => rfl
  | _ :: m :: rest => by
    have ih := insertT_empty_empty (m :: rest)
    simp only [emptyTree] at ih ⊢
    simp only [insertT, findE]
    rw [ih]
    rfl

theorem subtractT_empty_left : (b : GTree) → subtractT emptyTree b = emptyTree
  | .blob _ => rfl
  | .node _ => rfl

theorem overlayL_nil : (es : EntL) → overlayL es .nil = es
  | .nil => rfl
  | .cons n v rest => by
    simp only [overlayL, findE]
    rw [overlayL_nil rest]

theorem foldl_overlay_empties : (l : List (Op × GTree)) → (es : EntL) →
    (∀ q ∈ l, q.2 = emptyTree) →
    List.foldl (fun acc p => overlayT acc p.2) (.node es) l = .node es
  | [], _, _ => rfl
  | q :: rest, es, h => by
    have hq : q.2 = emptyTree := h q (List.mem_cons_self q rest)
    have hov : overlayT (.node es) q.2 = .node es := by
      rw [hq]
      show overlayT (.node es) (.node .nil) = .node es
      simp only [overlayT]
      rw [overlayL_nil]
    simp only [List.foldl_cons, hov]
    exact foldl_overlay_empties rest es (fun x hx => h x (List.mem_cons_of_mem _ hx))

theorem treeComposeP_empties (l : List (Op × GTree)) (h : ∀ q ∈ l, q.2 = emptyTree) :
    treeComposeP l = emptyTree := by
  simp only [treeComposeP, emptyTree]
  exact foldl_overlay_empties l .nil h

theorem applyEach_empties : (m : Nat) → (fs : List Op) → (ps : List (Op × GTree)) →
    (∀ k, k < m → ∀ f t, applyF k f emptyTree = .ok t → t = emptyTree) →
    applyEach m fs emptyTree = .ok ps → ∀ q ∈ ps, q.2 = emptyTree
  | 0, _, _, _, h => by simp [applyEach] at h
  | _+1, [], ps, _, h => by
    simp only [applyEach, Except.ok.injEq] at h
    subst h
    intro q hq
    cases hq
  | m+1, f :: rest, ps, hyp, h => by
    simp only [applyEach] at h
    cases hx : applyF m f emptyTree with
    | error e => rw [hx] at h; simp at h
    | ok x =>
      rw [hx] at h
      cases hxs : applyEach m rest emptyTree with
      | error e => rw [hxs] at h; simp at h
      | ok xs =>
        rw [hxs] at h
        simp only [exbind_ok, Except.ok.injEq] at h
        subst h
        intro q hq
        rcases List.mem_cons.mp hq with hq1 | hq2
        · subst hq1
          exact hyp m (Nat.lt_succ_self m) f x hx
        · exact applyEach_empties m rest xs
            (fun k hk => hyp k (Nat.lt_succ_of_lt hk)) hxs q hq2

/-- Claim C9 (amended): for every filter `f`, whenever `apply(f,
empty_tree)` succeeds, the result is the empty tree - in particular for
`Prefix(p)`, whose `apply` inserts the input tree at `p` under an
otherwise empty tree.  (The claim's unconditional form fails: `apply`
can error on the empty tree, e.g. for `Subtract(Nop, Fold)`, see the
counterexample.) -/
theorem claim_C9 : ∀ (n : Nat) (f : Op) (t : GTree),
    applyF n f emptyTree = .ok t → t = emptyTree := by
  intro n
  induction n using Nat.strong_induction_on with
  | _ n ih =>
    match n with
    | 0 => intro f t h; simp [applyF] at h
    | m+1 =>
      intro f t h
      have ihm : ∀ k, k < m + 1 → ∀ f t, applyF k f emptyTree = .ok t → t = emptyTree :=
        fun k hk => ih k hk
      cases f with
      | Nop => simp only [applyF, Except.ok.injEq] at h; exact h.symm
      | Empty => simp only [applyF, Except.ok.injEq] at h; exact h.symm
      | Fold => simp only [applyF, Except.ok.injEq] at h; exact h.symm
      | Squash => simp only [applyF, Except.ok.injEq] at h; exact h.symm
      | Dirs =>
        simp only [applyF, Except.ok.injEq] at h
        rw [← h]
        rfl
      | Glob pattern =>
        simp only [applyF] at h
        cases hg : globCompile pattern with
        | error e => rw [hg] at h; simp at h
        | ok pat =>
          rw [hg] at h
          simp only [exbind_ok, Except.ok.injEq] at h
          rw [← h]
          rfl
      | File path =>
        simp only [applyF, lookupPath_empty] at h
        simp only [Except.ok.injEq] at h
        exact h.symm
      | Subdir path =>
        simp only [applyF, lookupPath_empty] at h
        simp only [Except.ok.injEq] at h
        exact h.symm
      | PrefixOp path =>
        simp only [applyF, insertT_empty_empty, Except.ok.injEq] at h
        exact h.symm
      | Workspace path =>
        simp only [applyF] at h
        cases hp : parseFilter (getBlob emptyTree (path ++ [wsFile])) with
        | ok cw => rw [hp] at h; exact ihm m (Nat.lt_succ_self m) _ t h
        | error e => rw [hp] at h; exact ihm m (Nat.lt_succ_self m) _ t h
      | Compose fs =>
        simp only [applyF] at h
        cases hx : applyEach m fs emptyTree with
        | error e => rw [hx] at h; simp at h
        | ok pairs =>
          rw [hx] at h
          simp only [exbind_ok, Except.ok.injEq] at h
          rw [← h]
          exact treeComposeP_empties pairs
            (applyEach_empties m fs pairs (fun k hk => ihm k (Nat.lt_succ_of_lt hk)) hx)
      | Chain a b =>
        simp only [applyF] at h
        cases hx : applyF m a emptyTree with
        | error e => rw [hx] at h; simp at h
        | ok x =>
          rw [hx] at h
          simp only [exbind_ok] at h
          have hx2 : x = emptyTree := ihm m (Nat.lt_succ_self m) a x hx
          rw [hx2] at h
          exact ihm m (Nat.lt_succ_self m) b t h
      | Subtract a b =>
        simp only [applyF] at h
        cases haf : applyF m a emptyTree with
        | error e => rw [haf] at h; simp at h
        | ok af =>
          rw [haf] at h
          simp only [exbind_ok] at h
          cases hbf : applyF m b emptyTree with
          | error e => rw [hbf] at h; simp at h
          | ok bf =>
            rw [hbf] at h
            simp only [exbind_ok] at h
            cases hbu : unapplyF m b bf emptyTree with
            | error e => rw [hbu] at h; simp at h
            | ok bu =>
              rw [hbu] at h
              simp only [exbind_ok] at h
              cases hba : applyF m a bu with
              | error e => rw [hba] at h; simp at h
              | ok ba =>
                rw [hba] at h
                simp only [exbind_ok, Except.ok.injEq] at h
                rw [← h, ihm m (Nat.lt_succ_self m) a af haf]
                exact subtractT_empty_left ba

/-- Claim C9, counterexample to the claim as stated: `apply` of the
filter `:exclude[:FOLD]` (`Subtract(Nop, Fold)`) on the empty tree is
not the empty tree - it fails with `FilterNotReversible` coming from
the inner `unapply` that the `Subtract` arm of `apply2` performs. -/
theorem claim_C9_counterexample :
    applyF 5 (.Subtract .Nop .Fold) emptyTree = .error .notReversible := by
  decide

theorem claim_C9_witness :
    applyF 5 (.PrefixOp ["a", "b"]) emptyTree = .ok emptyTree ∧ emptyTree = emptyTree :=
  ⟨by decide, claim_C9 5 (.PrefixOp ["a", "b"]) emptyTree (by decide)⟩

/- ------------------------------------------------------------------ -/
/- Claim C1                                                            -/
/- ------------------------------------------------------------------ -/

theorem findE_replaceE : (es : EntL) → (n : String) → (v : GTree) →
    findE (replaceE es n v) n = some v
  | .nil, n, v => by simp [replaceE, findE]
  | .cons m w rest, n, v => by
    by_cases h : m = n
    · simp [replaceE, h, findE]
    · simp [replaceE, h, findE, findE_replaceE rest n v]

theorem findE_eraseE : (es : EntL) → (n : String) → findE (eraseE es n) n = none
  | .nil, _ => by simp [eraseE, findE]
  | .cons m w rest, n => by
    by_cases h : m = n
    · simp [eraseE, h, findE_eraseE rest n]
    · simp [eraseE, h, findE, findE_eraseE rest n]

theorem findE_setE (es : EntL) (n : String) (v : GTree) :
    findE (setE es n v) n = if v = .node .nil then none else some v := by
  by_cases hv : v = .node .nil
  · subst hv
    simp [setE, findE_eraseE]
  · rw [if_neg hv]
    have hrepl : setE es n v = replaceE es n v := by
      unfold setE
      cases v with
      | blob c => rfl
      | node es2 =>
        cases es2 with
        | nil => exact absurd rfl hv
        | cons a b c => rfl
    rw [hrepl, findE_replaceE]

/-- `insert` followed by `get_path` on a non-empty path: the inserted
object is found, except that inserting the empty tree removes the
entry. -/
theorem ins_lookup : (path : List String) → path ≠ [] → ∀ (es : EntL) (v : GTree),
    ∃ w, insertT (.node es) path v = .ok (.node w) ∧
      lookupPath (.node w) path = (if v = .node .nil then none else some v)
  | [], h, _, _ => absurd rfl h
  | [n], _, es, v => by
    refine ⟨setE es n v, rfl, ?_⟩
    simp [lookupPath, findE_setE]
  | n :: m :: rest, _, es, v => by
    have hiter : ∀ (ses : EntL),
        (match findE es n with
         | some (.node ses2) => GTree.node ses2
         | _ => GTree.node .nil) = .node ses →
        ∃ w, insertT (.node es) (n :: m :: rest) v = .ok (.node w) ∧
          lookupPath (.node w) (n :: m :: rest) = (if v = .node .nil then none else some v) := by
      intro ses hses
      obtain ⟨w', h1, h2⟩ := ins_lookup (m :: rest) (by simp) ses v
      refine ⟨setE es n (.node w'), ?_, ?_⟩
      · simp only [insertT, hses, h1]
      · cases w' with
        | nil =>
          have hlw : lookupPath (.node EntL.nil) (m :: rest) = none := lookupPath_empty (m :: rest)
          rw [hlw] at h2
          by_cases hv : v = .node .nil
          · subst hv
            simp [setE, lookupPath, findE_eraseE]
          · rw [if_neg hv] at h2
            exact absurd h2.symm (by simp)
        | cons a b c =>
          simp only [lookupPath, setE, findE_replaceE]
          exact h2
    cases hf : findE es n with
    | none => exact hiter .nil (by rw [hf])
    | some sub =>
      cases sub with
      | blob c => exact hiter .nil (by rw [hf])
      | node ses => exact hiter ses (by rw [hf])

/-- Claim C1 (amended): the round-trip law `apply(f, unapply(f, t, p))
== t` holds for the operators `Nop`, `Empty`, `Subdir(p)`, `Prefix(p)`
(non-empty path) and `File(p)`, for every parent tree and for every `t`
in the image of `apply(f, .)` (the claim's quantification over all `t`
fails already for `Empty`, and restricting to the image is not enough
for all invertible operators - exclude keeps parent content alive - see
the counterexample). -/
theorem claim_C1 (n : Nat) (f : Op) (u parent : GTree)
    (hf : f = .Nop ∨ f = .Empty ∨ (∃ p, f = .Subdir p) ∨
          (∃ p, p ≠ [] ∧ f = .PrefixOp p) ∨ (∃ p, f = .File p))
    (hu : ∃ es, u = GTree.node es) (hp : ∃ es, parent = GTree.node es) :
    ∃ t w, applyF (n+1) f u = .ok t ∧ unapplyF (n+1) f t parent = .ok w ∧
      applyF (n+1) f w = .ok t := by
  obtain ⟨ues, hu⟩ := hu
  obtain ⟨pes, hp⟩ := hp
  subst hu hp
  rcases hf with hf | hf | ⟨p, hf⟩ | ⟨p, hpne, hf⟩ | ⟨p, hf⟩ <;> subst hf
  · -- Nop
    exact ⟨.node ues, .node ues, rfl, rfl, rfl⟩
  · -- Empty
    exact ⟨emptyTree, .node pes, rfl, rfl, rfl⟩
  · -- Subdir p
    cases p with
    | nil =>
      refine ⟨emptyTree, emptyTree, ?_, ?_, ?_⟩ <;> rfl
    | cons hd tl =>
      cases hl : lookupPath (.node ues) (hd :: tl) with
      | none =>
        obtain ⟨w, h1, h2⟩ := ins_lookup (hd :: tl) (by simp) pes (GTree.node EntL.nil)
        rw [if_pos rfl] at h2
        refine ⟨emptyTree, .node w, ?_, ?_, ?_⟩
        · cases tl with
          | nil => simp [applyF, hl]
          | cons m rest => simp [applyF, hl]
        · simp only [unapplyF]
          exact h1
        · cases tl with
          | nil => simp [applyF, h2]
          | cons m rest => simp [applyF, h2]
      | some sub =>
        cases sub with
        | blob c =>
          obtain ⟨w, h1, h2⟩ := ins_lookup (hd :: tl) (by simp) pes (GTree.node EntL.nil)
          rw [if_pos rfl] at h2
          refine ⟨emptyTree, .node w, ?_, ?_, ?_⟩
          · cases tl with
            | nil => simp [applyF, hl]
            | cons m rest => simp [applyF, hl]
          · simp only [unapplyF]
            exact h1
          · cases tl with
            | nil => simp [applyF, h2]
            | cons m rest => simp [applyF, h2]
        | node ses =>
          by_cases hse : ses = EntL.nil
          · subst hse
            obtain ⟨w, h1, h2⟩ := ins_lookup (hd :: tl) (by simp) pes (GTree.node EntL.nil)
            rw [if_pos rfl] at h2
            refine ⟨emptyTree, .node w, ?_, ?_, ?_⟩
            · cases tl with
              | nil => simp [applyF, hl]; rfl
              | cons m rest => simp [applyF, hl]; rfl
            · simp only [unapplyF]
              exact h1
            · cases tl with
              | nil => simp [applyF, h2]
              | cons m rest => simp [applyF, h2]
          · obtain ⟨w, h1, h2⟩ := ins_lookup (hd :: tl) (by simp) pes (.node ses)
            rw [if_neg (by simpa using hse)] at h2
            refine ⟨.node ses, .node w, ?_, ?_, ?_⟩
            · cases tl with
              | nil => simp [applyF, hl]
              | cons m rest => simp [applyF, hl]
            · simp only [unapplyF]
              exact h1
            · cases tl with
              | nil => simp [applyF, h2]
              | cons m rest => simp [applyF, h2]
  · -- PrefixOp p, p nonempty
    cases p with
    | nil => exact absurd rfl hpne
    | cons hd tl =>
      by_cases hue : ues = EntL.nil
      · subst hue
        have hins : insertT emptyTree (hd :: tl) emptyTree = .ok emptyTree :=
          insertT_empty_empty (hd :: tl)
        refine ⟨emptyTree, emptyTree, ?_, ?_, ?_⟩
        · simpa [applyF, emptyTree] using hins
        · have hle : lookupPath emptyTree (hd :: tl) = none := lookupPath_empty (hd :: tl)
          cases tl with
          | nil => simp [unapplyF, emptyTree] at hle ⊢; simp [hle]
          | cons m rest => simp [unapplyF, emptyTree] at hle ⊢; simp [hle]
        · simpa [applyF, emptyTree] using hins
      · obtain ⟨w, h1, h2⟩ := ins_lookup (hd :: tl) (by simp) EntL.nil (.node ues)
        rw [if_neg (by simpa using hue)] at h2
        refine ⟨.node w, .node ues, ?_, ?_, ?_⟩
        · simpa [applyF, emptyTree] using h1
        · cases tl with
          | nil => simp [unapplyF, h2]
          | cons m rest => simp [unapplyF, h2]
        · simpa [applyF, emptyTree] using h1
  · -- File p
    cases p with
    | nil =>
      exact ⟨emptyTree, emptyTree, rfl, rfl, rfl⟩
    | cons hd tl =>
      cases hl : lookupPath (.node ues) (hd :: tl) with
      | none =>
        have hle : lookupPath emptyTree (hd :: tl) = none := lookupPath_empty (hd :: tl)
        refine ⟨emptyTree, emptyTree, ?_, ?_, ?_⟩
        · cases tl with
          | nil => simp [applyF, hl]
          | cons m rest => simp [applyF, hl]
        · cases tl with
          | nil => simp [unapplyF, emptyTree] at hle ⊢; simp [hle]
          | cons m rest => simp [unapplyF, emptyTree] at hle ⊢; simp [hle]
        · cases tl with
          | nil => simp [applyF, emptyTree] at hle ⊢; simp [hle]
          | cons m rest => simp [applyF, emptyTree] at hle ⊢; simp [hle]
      | some sub =>
        cases sub with
        | node ses =>
          have hle : lookupPath emptyTree (hd :: tl) = none := lookupPath_empty (hd :: tl)
          refine ⟨emptyTree, emptyTree, ?_, ?_, ?_⟩
          · cases tl with
            | nil => simp [applyF, hl]
            | cons m rest => simp [applyF, hl]
          · cases tl with
            | nil => simp [unapplyF, emptyTree] at hle ⊢; simp [hle]
            | cons m rest => simp [unapplyF, emptyTree] at hle ⊢; simp [hle]
          · cases tl with
            | nil => simp [applyF, emptyTree] at hle ⊢; simp [hle]
            | cons m rest => simp [applyF, emptyTree] at hle ⊢; simp [hle]
        | blob c =>
          obtain ⟨w0, g1, g2⟩ := ins_lookup (hd :: tl) (by simp) EntL.nil (.blob c)
          rw [if_neg (by simp)] at g2
          obtain ⟨w1, k1, k2⟩ := ins_lookup (hd :: tl) (by simp) pes (.blob c)
          rw [if_neg (by simp)] at k2
          refine ⟨.node w0, .node w1, ?_, ?_, ?_⟩
          · cases tl with
            | nil => simp [applyF, hl]; simpa [emptyTree] using g1
            | cons m rest => simp [applyF, hl]; simpa [emptyTree] using g1
          · cases tl with
            | nil => simp [unapplyF, g2]; exact k1
            | cons m rest => simp [unapplyF, g2]; exact k1
          · cases tl with
            | nil => simp [applyF, k2]; simpa [emptyTree] using g1
            | cons m rest => simp [applyF, k2]; simpa [emptyTree] using g1

/-- Claim C1, counterexample to the claim as stated: (1) `Empty` has a
well-defined inverse per the claim, yet the round trip collapses every
non-empty `t` to the empty tree; (2) even restricted to `t` in the
image of `apply(f, .)`, the round trip fails for the invertible filter
`:exclude[:/a]` (`Subtract(Nop, Subdir("a"))`) when the parent tree
carries content of its own: the unapply overlays the parent, and the
re-apply keeps the parent's extra entries. -/
theorem claim_C1_counterexample :
    (unapplyF 9 .Empty (.node (.cons "a" (.blob "1") .nil)) emptyTree = .ok emptyTree ∧
     applyF 9 .Empty emptyTree = .ok emptyTree ∧
     emptyTree ≠ .node (.cons "a" (.blob "1") .nil)) ∧
    (applyF 9 (.Subtract .Nop (.Subdir ["a"])) (.node (.cons "x" (.blob "1") .nil)) =
       .ok (.node (.cons "x" (.blob "1") .nil)) ∧
     unapplyF 9 (.Subtract .Nop (.Subdir ["a"])) (.node (.cons "x" (.blob "1") .nil))
        (.node (.cons "b" (.blob "2") .nil)) =
       .ok (.node (.cons "b" (.blob "2") (.cons "x" (.blob "1") .nil))) ∧
     applyF 9 (.Subtract .Nop (.Subdir ["a"])) (.node (.cons "b" (.blob "2") (.cons "x" (.blob "1") .nil))) =
       .ok (.node (.cons "b" (.blob "2") (.cons "x" (.blob "1") .nil))) ∧
     GTree.node (.cons "b" (.blob "2") (.cons "x" (.blob "1") .nil)) ≠
       .node (.cons "x" (.blob "1") .nil)) := by
  decide

theorem claim_C1_witness :
    ∃ t w,
      applyF 1 (.Subdir ["a"]) (.node (.cons "a" (.node (.cons "x" (.blob "1") .nil))
        (.cons "b" (.blob "2") .nil))) = .ok t ∧
      unapplyF 1 (.Subdir ["a"]) t (.node (.cons "c" (.blob "3") .nil)) = .ok w ∧
      applyF 1 (.Subdir ["a"]) w = .ok t :=
  claim_C1 0 (.Subdir ["a"])
    (.node (.cons "a" (.node (.cons "x" (.blob "1") .nil)) (.cons "b" (.blob "2") .nil)))
    (.node (.cons "c" (.blob "3") .nil))
    (Or.inr (Or.inr (Or.inl ⟨["a"], rfl⟩))) ⟨_, rfl⟩ ⟨_, rfl⟩

/- ------------------------------------------------------------------ -/
/- Claim C2                                                            -/
/- ------------------------------------------------------------------ -/

theorem findCommit_cid (r : Repo) (p : Nat) (pc : Commit) (h : findCommit r p = some pc) :
    pc.cid = p := by
  unfold findCommit at h
  by_cases hz : p = 0
  · simp [hz] at h
  · rw [if_neg hz] at h
    have := List.find?_some h
    simpa using this

theorem filter_ne_zero : (l : List Nat) → (∀ x ∈ l, x ≠ 0) →
    l.filter (fun x => !(x == 0)) = l
  | [], _ => rfl
  | x :: rest, h => by
    have hx : (!(x == 0)) = true := by
      simpa using h x (List.mem_cons_self x rest)
    simp only [List.filter_cons, hx, if_true]
    rw [filter_ne_zero rest (fun q hq => h q (List.mem_cons_of_mem _ hq))]

theorem resolve_list (r : Repo) : (l : List Nat) →
    (∀ p ∈ l, (findCommit r p).isSome = true) →
    ∃ pcs, mapME (fun x => match findCommit r x with
                           | some pc => Except.ok pc
                           | none => Except.error (JErr.missingObject "parent")) l = .ok pcs ∧
      pcs.map (fun pc => pc.cid) = l ∧ ∀ pc ∈ pcs, findCommit r pc.cid = some pc
  | [], _ => ⟨[], rfl, rfl, by intro pc hpc; cases hpc⟩
  | p :: rest, h => by
    have hp := h p (List.mem_cons_self p rest)
    obtain ⟨pc, hpc⟩ := Option.isSome_iff_exists.mp hp
    obtain ⟨pcs, h1, h2, h3⟩ := resolve_list r rest (fun q hq => h q (List.mem_cons_of_mem _ hq))
    have hcid : pc.cid = p := findCommit_cid r p pc hpc
    refine ⟨pc :: pcs, ?_, ?_, ?_⟩
    · simp only [mapME, hpc, h1]
    · simp [h2, hcid]
    · intro q hq
      rcases List.mem_cons.mp hq with hq1 | hq2
      · subst hq1
        rw [hcid]
        exact hpc
      · exact h3 q hq2

theorem select_all (r : Repo) (c : Commit) (pcs : List Commit)
    (hcids : pcs.map (fun pc => pc.cid) = c.cparents)
    (hmem : ∀ pc ∈ pcs, findCommit r pc.cid = some pc) :
    select_parent_commits r c c.ctree pcs = pcs := by
  unfold select_parent_commits
  by_cases haff : pcs.any (fun x => !(decide (c.ctree = x.ctree))) = true
  · simp [haff]
  · have hall : (c.cparents.all (fun pid =>
        match findCommit r pid with
        | some p => decide (p.ctree = c.ctree)
        | none => false)) = true := by
      rw [List.all_eq_true]
      intro pid hpid
      rw [← hcids] at hpid
      obtain ⟨pc, hpc, hpcid⟩ := List.mem_map.mp hpid
      subst hpcid
      rw [hmem pc hpc]
      have hne : ¬ ((!(decide (c.ctree = pc.ctree))) = true) :=
        fun hcontra => haff (List.any_eq_true.mpr ⟨pc, hpc, hcontra⟩)
      have hne2 : c.ctree = pc.ctree := by
        by_contra hcc
        exact hne (by simp [hcc])
      simp [hne2.symm]
    simp [hall]

/-- Claim C2 (amended): if the filtered tree equals the commit's tree
and the filtered parent ids are exactly the commit's own parent ids
(all non-null and resolvable), and additionally the initial-merge
flatten does not fire (the commit has at most one parent or its parents
share a merge base), then `create_filtered_commit2` returns `c.id`
itself via the `rewrite_commit` shortcut, writing no new commit object
(the repository is returned unchanged).  Without the merge-base
condition the flatten can drop an empty-tree parent and the result is a
different id - see the counterexample. -/
theorem claim_C2 (r : Repo) (c : Commit)
    (hnz : ∀ p ∈ c.cparents, p ≠ 0)
    (hres : ∀ p ∈ c.cparents, (findCommit r p).isSome = true)
    (hmb : c.cparents.length ≤ 1 ∨ (mergeBaseMany r c.cparents).isSome = true) :
    create_filtered_commit2 r c c.cparents c.ctree = .ok (c.cid, true, r) := by
  obtain ⟨pcs, hmap, hcids, hmem⟩ := resolve_list r c.cparents hres
  have hfilter : c.cparents.filter (fun x => !(x == 0)) = c.cparents :=
    filter_ne_zero c.cparents hnz
  have hmerge : (decide (c.cparents.length > 1) &&
      (mergeBaseMany r c.cparents).isNone) = false := by
    rcases hmb with hlen | hsome
    · have : decide (c.cparents.length > 1) = false := by
        simp only [decide_eq_false_iff_not]
        omega
      simp [this]
    · have : (mergeBaseMany r c.cparents).isNone = false := by
        cases hmb2 : mergeBaseMany r c.cparents with
        | none => rw [hmb2] at hsome; simp at hsome
        | some x => rfl
      simp [this]
  have hsel := select_all r c pcs hcids hmem
  have hrw : rewrite_commit r c pcs c.ctree = (c.cid, r) := by
    unfold rewrite_commit
    rw [if_pos]
    constructor
    · rfl
    · unfold all_equal
      rw [hcids]
      exact beq_self_eq_true c.cparents
  unfold create_filtered_commit2
  rw [hfilter, hmap]
  simp only [hmerge, if_false, Bool.false_eq_true]
  rw [hsel]
  cases pcs with
  | nil =>
    have hpar : c.cparents = [] := by simpa using hcids.symm
    simp only [List.isEmpty_nil, Bool.true_and, hpar, is_empty_root]
    cases hemp : isEmptyTree c.ctree with
    | true =>
      simp only [Bool.not_true, Bool.and_false, Bool.false_and]
      rw [hrw]
      simp
    | false =>
      simp only [Bool.not_false, Bool.and_true, Bool.true_and, hemp]
      rw [hrw]
      simp [hemp]
  | cons pc rest =>
    simp only [List.isEmpty_cons, Bool.false_and, Bool.false_eq_true, if_false]
    rw [hrw]

def c2_bT : GTree := .node (.cons "x" (.blob "b") .nil)

def c2_p1 : Commit := ⟨1, c2_bT, [], "a", "a", "m"⟩

def c2_p2 : Commit := ⟨2, emptyTree, [], "a", "a", "m"⟩

def c2_c : Commit := ⟨3, c2_bT, [1, 2], "a", "a", "m"⟩

def c2_repo : Repo := ⟨[c2_p1, c2_p2, c2_c], [], 10⟩

/-- Claim C2, counterexample to the claim as stated: `File("x")` on a
merge of two unrelated roots, one with an empty tree.  The filtered
tree equals the commit's tree and both parents filter to their own ids
(the hypotheses of the claim hold), yet `apply_to_commit` returns the
first parent's id, not `c.id`: the initial-merge flatten discards the
empty-tree parent, the commit then no longer "affects the filter", and
it collapses to its first surviving filtered parent. -/
theorem claim_C2_counterexample :
    applyF 30 (.File ["x"]) c2_c.ctree = .ok c2_c.ctree ∧
    resOid (apply_to_commit2 30 (.File ["x"]) c2_p1 c2_repo Transaction.new) = some 1 ∧
    resOid (apply_to_commit2 30 (.File ["x"]) c2_p2 c2_repo Transaction.new) = some 2 ∧
    resOid (apply_to_commit2 30 (.File ["x"]) c2_c c2_repo Transaction.new) = some 1 ∧
    c2_c.cid = 3 ∧ (1 : Nat) ≠ 3 := by
  decide

theorem claim_C2_witness :
    create_filtered_commit2 c2_repo c2_p1 c2_p1.cparents c2_p1.ctree = .ok (1, true, c2_repo) :=
  claim_C2 c2_repo c2_p1 (by decide) (by decide) (Or.inl (by decide))

/- ------------------------------------------------------------------ -/
/- Claim C5                                                            -/
/- ------------------------------------------------------------------ -/

/-- The staging claim C5 describes (for comparison with the source):
null parent ids are dropped FIRST, and the initial-merge test (at least
two parents, no merge base) is computed on the surviving list. -/
def create_filtered_commit2_claim (r : Repo) (original : Commit)
    (filtered_parent_ids : List Nat) (filtered_tree : GTree) :
    Except JErr (Nat × Bool × Repo) :=
  let survivors := filtered_parent_ids.filter (fun x => !(x == 0))
  let is_initial_merge :=
    decide (survivors.length > 1) && (mergeBaseMany r survivors).isNone
  match mapME (fun x => match findCommit r x with
                        | some pc => .ok pc
                        | none => .error (.missingObject "parent")) survivors with
  | .error e => .error e
  | .ok fpcs0 =>
    let fpcs := if is_initial_merge then fpcs0.filter (fun x => !(isEmptyTree x.ctree)) else fpcs0
    let selected := select_parent_commits r original filtered_tree fpcs
    if selected.isEmpty && !(original.cparents.isEmpty && is_empty_root original.ctree) then
      match fpcs with
      | pc :: _ => .ok (pc.cid, false, r)
      | [] =>
        if isEmptyTree filtered_tree then .ok (0, false, r)
        else
          let (oid, r2) := rewrite_commit r original selected filtered_tree
          .ok (oid, true, r2)
    else
      let (oid, r2) := rewrite_commit r original selected filtered_tree
      .ok (oid, true, r2)

/-- The staging the source actually implements, spelled out: the
initial-merge test is computed on the FULL parent id list, before any
null id is dropped (a null id in the list makes `merge_base_many` fail
and so counts as "no merge base"); only then are null ids dropped and,
when the test fired, empty-tree parents discarded from the
survivors. -/
def create_filtered_commit2_amended (r : Repo) (original : Commit)
    (filtered_parent_ids : List Nat) (filtered_tree : GTree) :
    Except JErr (Nat × Bool × Repo) :=
  let is_initial_merge :=
    decide (filtered_parent_ids.length > 1) && (mergeBaseMany r filtered_parent_ids).isNone
  let survivors := filtered_parent_ids.filter (fun x => !(x == 0))
  match mapME (fun x => match findCommit r x with
                        | some pc => .ok pc
                        | none => .error (.missingObject "parent")) survivors with
  | .error e => .error e
  | .ok fpcs0 =>
    let fpcs := if is_initial_merge then fpcs0.filter (fun x => !(isEmptyTree x.ctree)) else fpcs0
    let selected := select_parent_commits r original filtered_tree fpcs
    if selected.isEmpty && !(original.cparents.isEmpty && is_empty_root original.ctree) then
      match fpcs with
      | pc :: _ => .ok (pc.cid, false, r)
      | [] =>
        if isEmptyTree filtered_tree then .ok (0, false, r)
        else
          let (oid, r2) := rewrite_commit r original selected filtered_tree
          .ok (oid, true, r2)
    else
      let (oid, r2) := rewrite_commit r original selected filtered_tree
      .ok (oid, true, r2)

/-- Claim C5 (amended): `create_filtered_commit2` computes the
initial-merge test on the parent list BEFORE null ids are dropped
(first conjunct: the source equals the amended staging), and the
claim's drop-first staging agrees with the source exactly when no null
parent id is present (second conjunct); with a null id present the two
differ - see the counterexample. -/
theorem claim_C5 :
    (∀ (r : Repo) (c : Commit) (pids : List Nat) (t : GTree),
      create_filtered_commit2 r c pids t = create_filtered_commit2_amended r c pids t) ∧
    (∀ (r : Repo) (c : Commit) (pids : List Nat) (t : GTree), (∀ p ∈ pids, p ≠ 0) →
      create_filtered_commit2 r c pids t = create_filtered_commit2_claim r c pids t) := by
  constructor
  · intro r c pids t
    rfl
  · intro r c pids t hnz
    unfold create_filtered_commit2 create_filtered_commit2_claim
    rw [filter_ne_zero pids hnz]

def c5_pa : Commit := ⟨1, emptyTree, [], "a", "a", "m"⟩

def c5_c : Commit := ⟨2, .node (.cons "y" (.blob "z") .nil), [1], "a", "a", "m"⟩

def c5_repo : Repo := ⟨[c5_pa, c5_c], [], 10⟩

/-- Claim C5, counterexample to the claim as stated: with filtered
parent ids `[1, 0]` (one real parent with an empty tree, one null), the
claim's drop-first staging keeps the single survivor and the commit
collapses to parent id `1`; the source computes the merge-base test on
`[1, 0]` - which fails because of the null id - so the flatten
discards the empty-tree parent and the result is the null id `0`. -/
theorem claim_C5_counterexample :
    create_filtered_commit2 c5_repo c5_c [1, 0] emptyTree = .ok (0, false, c5_repo) ∧
    create_filtered_commit2_claim c5_repo c5_c [1, 0] emptyTree = .ok (1, false, c5_repo) ∧
    (0 : Nat) ≠ 1 := by
  decide

theorem claim_C5_witness :
    create_filtered_commit2 c5_repo c5_c [1] emptyTree =
      create_filtered_commit2_amended c5_repo c5_c [1] emptyTree ∧
    create_filtered_commit2 c5_repo c5_c [1] emptyTree =
      create_filtered_commit2_claim c5_repo c5_c [1] emptyTree :=
  ⟨claim_C5.1 c5_repo c5_c [1] emptyTree, claim_C5.2 c5_repo c5_c [1] emptyTree (by decide)⟩

/- ------------------------------------------------------------------ -/
/- Claim C4                                                            -/
/- ------------------------------------------------------------------ -/

theorem dedupTrees_nil_iff : (l : List GTree) → (dedupTrees l = [] ↔ l = [])
  | [] => by simp [dedupTrees]
  | t :: rest => by
    simp only [dedupTrees]
    constructor
    · intro h
      by_cases hc : (dedupTrees rest).contains t
      · rw [if_pos hc] at h
        have := (dedupTrees_nil_iff rest).mp h
        subst this
        simp [dedupTrees] at hc
      · rw [if_neg hc] at h
        cases h
    · intro h
      cases h

theorem mapME_length {α β : Type} (g : α → Except JErr β) :
    (l : List α) → (ys : List β) → mapME g l = .ok ys → ys.length = l.length
  | [], ys, h => by
    simp only [mapME, Except.ok.injEq] at h
    subst h
    rfl
  | x :: xs, ys, h => by
    simp only [mapME] at h
    cases hx : g x with
    | error e => rw [hx] at h; cases h
    | ok y =>
      rw [hx] at h
      cases hxs : mapME g xs with
      | error e => rw [hxs] at h; cases h
      | ok zs =>
        rw [hxs] at h
        simp only [Except.ok.injEq] at h
        subst h
        simp [mapME_length g xs zs hxs]

/-- Claim C4: one iteration of `unapply_filter`'s revwalk loop, given
the resolution of the visited commit and its original parents.  The
candidate unapplied trees (one per resolved original parent) are
deduplicated into a set; the set is empty exactly when there is no
resolved original parent; with exactly one distinct tree the commit is
rewritten with it and the loop continues; with none it is rewritten
with `unapply(f, filtered_tree, empty_tree)`; with `n >= 2` distinct
trees the whole operation returns `RejectMerge(n)` instead of
rewriting. -/
theorem claim_C4 (n : Nat) (r r2 : Repo) (bm bm2 : List (Nat × Nat)) (f : Op)
    (uo rev ret : Nat) (rest : List Nat) (mc : Commit) (origIds0 : List Nat)
    (ops : List Commit) (trees : List GTree)
    (h1 : findCommit r rev = some mc)
    (h2 : assocN bm mc.cid = none)
    (h3 : findOrigParents n r bm f uo mc.cparents = .ok (origIds0, r2, bm2))
    (h4 : mapME (fun i => match findCommit r2 i with
                          | some c => Except.ok c
                          | none => Except.error (JErr.missingObject "orig"))
            (origIds0.filter (fun i => !(i == 0))) = .ok ops)
    (h5 : mapME (fun x => unapplyF n f mc.ctree x.ctree) ops = .ok trees) :
    ((dedupTrees trees).length = 0 ↔ ops = []) ∧
    (∀ k, (dedupTrees trees).length = k → 2 ≤ k →
      unapplyFilterLoop (n+1) r bm f uo (rev :: rest) ret = .ok (.RejectMerge k, r2)) ∧
    (∀ t, dedupTrees trees = [t] →
      unapplyFilterLoop (n+1) r bm f uo (rev :: rest) ret =
        unapplyFilterLoop n (rewrite_commit r2 mc ops t).2
          ((mc.cid, (rewrite_commit r2 mc ops t).1) :: bm2) f uo rest
          (rewrite_commit r2 mc ops t).1) ∧
    (∀ t0, dedupTrees trees = [] → unapplyF n f mc.ctree emptyTree = .ok t0 →
      unapplyFilterLoop (n+1) r bm f uo (rev :: rest) ret =
        unapplyFilterLoop n (rewrite_commit r2 mc ops t0).2
          ((mc.cid, (rewrite_commit r2 mc ops t0).1) :: bm2) f uo rest
          (rewrite_commit r2 mc ops t0).1) := by
  have hloop : unapplyFilterLoop (n+1) r bm f uo (rev :: rest) ret =
      (match dedupTrees trees with
       | [t] =>
         let (ret2, r3) := rewrite_commit r2 mc ops t
         unapplyFilterLoop n r3 ((mc.cid, ret2) :: bm2) f uo rest ret2
       | [] =>
         match unapplyF n f mc.ctree emptyTree with
         | .error e => .error e
         | .ok t =>
           let (ret2, r3) := rewrite_commit r2 mc ops t
           unapplyFilterLoop n r3 ((mc.cid, ret2) :: bm2) f uo rest ret2
       | _ :: _ :: _ => .ok (.RejectMerge (dedupTrees trees).length, r2)) := by
    simp only [unapplyFilterLoop, h1, h2, Option.isSome_none, Bool.false_eq_true, if_false,
      h3, h4, h5]
  refine ⟨?_, ?_, ?_, ?_⟩
  · constructor
    · intro h
      have htr : trees = [] :=
        (dedupTrees_nil_iff trees).mp (List.length_eq_zero.mp h)
      subst htr
      have hlen := mapME_length _ ops [] h5
      exact List.length_eq_zero.mp (by simpa using hlen.symm)
    · intro h
      subst h
      simp only [mapME, Except.ok.injEq] at h5
      subst h5
      rfl
  · intro k hk h2k
    subst hk
    rw [hloop]
    cases hd : dedupTrees trees with
    | nil =>
      exfalso
      rw [hd] at h2k
      simp at h2k
    | cons a tl =>
      cases tl with
      | nil =>
        exfalso
        rw [hd] at h2k
        simp at h2k
      | cons b tl2 => simp only [hd]
  · intro t ht
    rw [hloop]
    simp only [ht]
  · intro t0 ht h6
    rw [hloop]
    simp only [ht, h6]

def c4_o11 : Commit :=
  ⟨11, tN [("s", tN [("a", .blob "A")]), ("o", .blob "1")], [], "a", "a", "m"⟩

def c4_o12 : Commit :=
  ⟨12, tN [("s", tN [("a", .blob "A")]), ("o", .blob "2")], [], "a", "a", "m"⟩

def c4_fm : Commit := ⟨3, tN [("a", .blob "B")], [1, 2], "a", "a", "m"⟩

def c4_repo : Repo := ⟨[c4_o11, c4_o12, c4_fm], [], 100⟩

def c4_bm : List (Nat × Nat) := [(1, 11), (2, 12)]

theorem claim_C4_witness :
    unapplyFilterLoop 30 c4_repo c4_bm (.Subdir ["s"]) 11 [3] 0 =
      .ok (.RejectMerge 2, c4_repo) :=
  (claim_C4 29 c4_repo c4_repo c4_bm c4_bm (.Subdir ["s"]) 11 3 0 [] c4_fm
      [11, 12] [c4_o11, c4_o12]
      [tN [("s", tN [("a", .blob "B")]), ("o", .blob "1")],
       tN [("s", tN [("a", .blob "B")]), ("o", .blob "2")]]
      (by decide) (by decide) (by decide) (by decide) (by decide)).2.1 2
    (by decide) (by decide)

/- ------------------------------------------------------------------ -/
/- Claim C7                                                            -/
/- ------------------------------------------------------------------ -/

theorem unapplyFilterLoop_no_bdne : (n : Nat) → ∀ (r : Repo) (bm : List (Nat × Nat))
    (f : Op) (uo : Nat) (revs : List Nat) (ret : Nat) (res : UnapplyFilter) (r2 : Repo),
    unapplyFilterLoop n r bm f uo revs ret = .ok (res, r2) → res ≠ .BranchDoesNotExist
  | 0 => by
    intro r bm f uo revs ret res r2 h
    simp [unapplyFilterLoop] at h
  | n+1 => by
    intro r bm f uo revs ret res r2 h
    cases revs with
    | nil =>
      simp only [unapplyFilterLoop, Except.ok.injEq, Prod.mk.injEq] at h
      rw [← h.1]
      intro hc
      cases hc
    | cons rev rest =>
      simp only [unapplyFilterLoop] at h
      cases hfc : findCommit r rev with
      | none =>
        simp only [hfc] at h
        cases h
      | some mc =>
        simp only [hfc] at h
        cases hbm : (assocN bm mc.cid).isSome with
        | true =>
          simp only [hbm, if_true] at h
          exact unapplyFilterLoop_no_bdne n _ _ _ _ _ _ _ _ h
        | false =>
          simp only [hbm, Bool.false_eq_true, if_false] at h
          cases hop : findOrigParents n r bm f uo mc.cparents with
          | error e =>
            simp only [hop] at h
            cases h
          | ok trip =>
            obtain ⟨origIds0, r2x, bm2⟩ := trip
            simp only [hop] at h
            cases hmp : mapME (fun i => match findCommit r2x i with
                                        | some c => Except.ok c
                                        | none => Except.error (JErr.missingObject "orig"))
                (origIds0.filter (fun i => !(i == 0))) with
            | error e =>
              simp only [hmp] at h
              cases h
            | ok ops =>
              simp only [hmp] at h
              cases htr : mapME (fun x => unapplyF n f mc.ctree x.ctree) ops with
              | error e =>
                simp only [htr] at h
                cases h
              | ok trees =>
                simp only [htr] at h
                cases hd : dedupTrees trees with
                | nil =>
                  simp only [hd] at h
                  cases hu : unapplyF n f mc.ctree emptyTree with
                  | error e =>
                    simp only [hu] at h
                    cases h
                  | ok t0 =>
                    simp only [hu] at h
                    exact unapplyFilterLoop_no_bdne n _ _ _ _ _ _ _ _ h
                | cons a tl =>
                  cases tl with
                  | nil =>
                    simp only [hd] at h
                    exact unapplyFilterLoop_no_bdne n _ _ _ _ _ _ _ _ h
                  | cons b tl2 =>
                    simp only [hd, Except.ok.injEq, Prod.mk.injEq] at h
                    rw [← h.1]
                    intro hc
                    cases hc

/-- Claim C7 (amended): when the unfiltered base `contained_in` is the
null id, `find_original` immediately returns the null id (first
conjunct), so `unapply_filter` treats every parent as unrelated history
and proceeds; `unapply_filter` never returns `BranchDoesNotExist` - on
success its result is always `Done` or `RejectMerge` (second conjunct).
The `BranchDoesNotExist` value exists in the enum and in the caller,
but `src/history.rs` never constructs it. -/
theorem claim_C7 :
    (∀ (n : Nat) (r : Repo) (bm : List (Nat × Nat)) (f : Op) (filtered : Nat),
      find_original (n+1) r bm f 0 filtered = .ok (0, r, bm)) ∧
    (∀ (fuel : Nat) (r : Repo) (f : Op) (uo oldId newId : Nat) (res : UnapplyFilter) (r2 : Repo),
      unapply_filter fuel r f uo oldId newId = .ok (res, r2) → res ≠ .BranchDoesNotExist) := by
  constructor
  · intro n r bm f filtered
    simp [find_original]
  · intro fuel r f uo oldId newId res r2 h
    cases fuel with
    | zero => simp [unapply_filter] at h
    | succ n =>
      simp only [unapply_filter] at h
      split at h
      · cases h
      · exact unapplyFilterLoop_no_bdne n _ _ _ _ _ _ _ _ h

def c7_n1 : Commit := ⟨1, .node (.cons "x" (.blob "b") .nil), [], "a", "a", "m"⟩

def c7_repo : Repo := ⟨[c7_n1], [], 10⟩

/-- Claim C7, counterexample to the claim as stated: with the
unfiltered base id null (`contained_in == 0`), `unapply_filter` does
not return `BranchDoesNotExist` - it proceeds (every original lookup
yields the null id, the pushed commit is rebuilt against the empty
tree) and returns `Done`. -/
theorem claim_C7_counterexample :
    unapply_filter 30 c7_repo .Nop 0 0 1 = .ok (.Done 1, c7_repo) ∧
    UnapplyFilter.Done 1 ≠ .BranchDoesNotExist := by
  decide

theorem claim_C7_witness :
    find_original 1 c7_repo [] .Nop 0 5 = .ok (0, c7_repo, []) ∧
    UnapplyFilter.Done 1 ≠ .BranchDoesNotExist :=
  ⟨claim_C7.1 0 c7_repo [] .Nop 5,
   claim_C7.2 30 c7_repo .Nop 0 0 1 (.Done 1) c7_repo (by decide)⟩

/- ------------------------------------------------------------------ -/
/- Claim C6                                                            -/
/- ------------------------------------------------------------------ -/

theorem rewrite_commit_refs (r : Repo) (base : Commit) (ps : List Commit) (t : GTree) :
    (rewrite_commit r base ps t).2.refs = r.refs := by
  unfold rewrite_commit
  split
  · rfl
  · rfl

theorem create_filtered_commit2_refs (r : Repo) (c : Commit) (pids : List Nat) (t : GTree)
    (oid : Nat) (b : Bool) (r2 : Repo)
    (h : create_filtered_commit2 r c pids t = .ok (oid, b, r2)) : r2.refs = r.refs := by
  unfold create_filtered_commit2 at h
  cases hmp : mapME (fun x => match findCommit r x with
                              | some pc => Except.ok pc
                              | none => Except.error (JErr.missingObject "parent"))
      (pids.filter (fun x => !(x == 0))) with
  | error e =>
    simp only [hmp] at h
    cases h
  | ok fpcs0 =>
    simp only [hmp] at h
    iterate 5 (all_goals try split at h)
    all_goals simp only [Except.ok.injEq, Prod.mk.injEq] at h
    all_goals rw [← h.2.2]
    all_goals exact rewrite_commit_refs _ _ _ _

theorem create_filtered_commit_refs (c : Commit) (pids : List Nat) (t : GTree)
    (r : Repo) (tr : Transaction) (key : String) (oid : Nat) (r2 : Repo) (tr2 : Transaction)
    (h : create_filtered_commit c pids t r tr key = .ok (oid, r2, tr2)) : r2.refs = r.refs := by
  unfold create_filtered_commit at h
  cases hc : create_filtered_commit2 r c pids t with
  | error e =>
    simp only [hc] at h
    cases h
  | ok trip =>
    obtain ⟨o, b, r3⟩ := trip
    simp only [hc, Except.ok.injEq, Prod.mk.injEq] at h
    rw [← h.2.1]
    exact create_filtered_commit2_refs r c pids t o b r3 hc

/-- All functions of the `apply_to_commit2` / `walk2` block leave the
refs of the repository untouched: they only append commit objects. -/
theorem mutual_refs : (n : Nat) →
    (∀ op c r tr x r2 tr2, apply_to_commit2 n op c r tr = .ok (x, r2, tr2) → r2.refs = r.refs) ∧
    (∀ fs c r tr xs r2 tr2, composeCommits n fs c r tr = .ok (xs, r2, tr2) → r2.refs = r.refs) ∧
    (∀ ws cw pcs r tr xs r2 tr2,
      extraParentsLoop n ws cw pcs r tr = .ok (xs, r2, tr2) → r2.refs = r.refs) ∧
    (∀ f c ft r tr x r2 tr2, finishCommit n f c ft r tr = .ok (x, r2, tr2) → r2.refs = r.refs) ∧
    (∀ f ps r tr xs r2 tr2, walkParents n f ps r tr = .ok (xs, r2, tr2) → r2.refs = r.refs) ∧
    (∀ f i r tr x r2 tr2, walk2 n f i r tr = .ok (x, r2, tr2) → r2.refs = r.refs) ∧
    (∀ f l r tr r2 tr2, walkLoop n f l r tr = .ok (r2, tr2) → r2.refs = r.refs)
  | 0 => by
    refine ⟨?_, ?_, ?_, ?_, ?_, ?_, ?_⟩
    · intro op c r tr x r2 tr2 h
      simp [apply_to_commit2] at h
    · intro fs c r tr xs r2 tr2 h
      simp [composeCommits] at h
    · intro ws cw pcs r tr xs r2 tr2 h
      simp [extraParentsLoop] at h
    · intro f c ft r tr x r2 tr2 h
      simp [finishCommit] at h
    · intro f ps r tr xs r2 tr2 h
      simp [walkParents] at h
    · intro f i r tr x r2 tr2 h
      simp [walk2] at h
    · intro f l r tr r2 tr2 h
      simp [walkLoop] at h
  | n+1 => by
    obtain ⟨ihA, ihC, ihE, ihF, ihP, ihW, ihL⟩ := mutual_refs n
    refine ⟨?_, ?_, ?_, ?_, ?_, ?_, ?_⟩
    · -- apply_to_commit2
      intro op c r tr x r2 tr2 h
      simp only [apply_to_commit2] at h
      cases hopt : optimizeK op with
      | Nop =>
        rw [hopt] at h
        simp only [Except.ok.injEq, Prod.mk.injEq] at h
        rw [← h.2.1]
      | Empty =>
        rw [hopt] at h
        simp only [Except.ok.injEq, Prod.mk.injEq] at h
        rw [← h.2.1]
      | Chain a b =>
        rw [hopt] at h
        cases ha : apply_to_commit2 n a c r tr with
        | error e => simp only [ha] at h; cases h
        | ok trip =>
          obtain ⟨rid, rA, trA⟩ := trip
          simp only [ha] at h
          have hrA := ihA a c r tr rid rA trA ha
          cases hf : findCommit rA rid with
          | some rc =>
            simp only [hf] at h
            rw [ihA b rc rA trA x r2 tr2 h, hrA]
          | none =>
            simp only [hf, Except.ok.injEq, Prod.mk.injEq] at h
            rw [← h.2.1]
            exact hrA
      | Squash =>
        rw [hopt] at h
        cases hrw : rewrite_commit r c [] c.ctree with
        | mk o r3 =>
          simp only [hrw, Except.ok.injEq, Prod.mk.injEq] at h
          have := rewrite_commit_refs r c [] c.ctree
          rw [hrw] at this
          rw [← h.2.1]
          exact this
      | Fold =>
        rw [hopt] at h
        cases hg : Transaction.get tr r (specKey .Fold) c.cid with
        | some oid =>
          simp only [hg, Except.ok.injEq, Prod.mk.injEq] at h
          rw [← h.2.1]
        | none =>
          simp only [hg] at h
          cases hw : walkParents n .Fold c.cparents r tr with
          | error e => simp only [hw] at h; cases h
          | ok trip =>
            obtain ⟨fpids, rA, trA⟩ := trip
            simp only [hw] at h
            have hrA := ihP .Fold c.cparents r tr fpids rA trA hw
            cases hm : mapME (fun x => match findCommit rA x with
                                       | some fc => Except.ok fc.ctree
                                       | none => Except.error (JErr.missingObject "fold")) fpids with
            | error e => simp only [hm] at h; cases h
            | ok ptrees =>
              simp only [hm] at h
              rw [ihF .Fold c (ptrees.foldl overlayT c.ctree) rA trA x r2 tr2 h, hrA]
      | Compose fs =>
        rw [hopt] at h
        cases hg : Transaction.get tr r (specKey (.Compose fs)) c.cid with
        | some oid =>
          simp only [hg, Except.ok.injEq, Prod.mk.injEq] at h
          rw [← h.2.1]
        | none =>
          simp only [hg] at h
          cases hcc : composeCommits n fs c r tr with
          | error e => simp only [hcc] at h; cases h
          | ok trip =>
            obtain ⟨ids, rA, trA⟩ := trip
            simp only [hcc] at h
            have hrA := ihC fs c r tr ids rA trA hcc
            cases hm : mapME (fun p => match findCommit rA p.2 with
                                       | some fc => Except.ok (p.1, fc.ctree)
                                       | none => Except.error (JErr.missingObject "compose"))
                ((fs.zip ids).filter (fun p => !(p.2 == 0))) with
            | error e => simp only [hm] at h; cases h
            | ok pairs =>
              simp only [hm] at h
              rw [ihF (.Compose fs) c (treeComposeP pairs) rA trA x r2 tr2 h, hrA]
      | Workspace ws =>
        rw [hopt] at h
        cases hg : Transaction.get tr r (specKey (.Workspace ws)) c.cid with
        | some oid =>
          simp only [hg, Except.ok.injEq, Prod.mk.injEq] at h
          rw [← h.2.1]
        | none =>
          simp only [hg] at h
          cases hw : walkParents n (.Workspace ws) c.cparents r tr with
          | error e => simp only [hw] at h; cases h
          | ok trip =>
            obtain ⟨normal, rA, trA⟩ := trip
            simp only [hw] at h
            have hrA := ihP (.Workspace ws) c.cparents r tr normal rA trA hw
            cases hm : mapME (fun pid => match findCommit rA pid with
                                         | some pc => Except.ok pc
                                         | none => Except.error (JErr.missingObject "parent"))
                c.cparents with
            | error e => simp only [hm] at h; cases h
            | ok pcs =>
              simp only [hm] at h
              cases he : extraParentsLoop n ws
                  (match parseFilter (getBlob c.ctree (ws ++ [wsFile])) with
                   | .ok x => x
                   | .error _ => Op.Empty) pcs rA trA with
              | error e => simp only [he] at h; cases h
              | ok trip2 =>
                obtain ⟨extra, rB, trB⟩ := trip2
                simp only [he] at h
                have hrB := ihE ws _ pcs rA trA extra rB trB he
                cases hap : applyF n (.Workspace ws) c.ctree with
                | error e => simp only [hap] at h; cases h
                | ok ftree =>
                  simp only [hap] at h
                  rw [create_filtered_commit_refs c (normal ++ extra) ftree rB trB
                    (specKey (.Workspace ws)) x r2 tr2 h, hrB, hrA]
      | Subtract a b =>
        rw [hopt] at h
        cases hg : Transaction.get tr r (specKey (.Subtract a b)) c.cid with
        | some oid =>
          simp only [hg, Except.ok.injEq, Prod.mk.injEq] at h
          rw [← h.2.1]
        | none =>
          simp only [hg] at h
          cases ha : apply_to_commit2 n a c r tr with
          | error e => simp only [ha] at h; cases h
          | ok trip =>
            obtain ⟨aid, rA, trA⟩ := trip
            simp only [ha] at h
            have hrA := ihA a c r tr aid rA trA ha
            cases hb : apply_to_commit2 n b c rA trA with
            | error e => simp only [hb] at h; cases h
            | ok trip2 =>
              obtain ⟨bid, rB, trB⟩ := trip2
              simp only [hb] at h
              have hrB := ihA b c rA trA bid rB trB hb
              cases hu : unapplyF n b
                  (match findCommit rB bid with
                   | some x => x.ctree
                   | none => emptyTree) emptyTree with
              | error e => simp only [hu] at h; cases h
              | ok bu =>
                simp only [hu] at h
                cases hba : applyF n a bu with
                | error e => simp only [hba] at h; cases h
                | ok ba =>
                  simp only [hba] at h
                  rw [ihF (.Subtract a b) c _ rB trB x r2 tr2 h, hrB, hrA]
      | File path =>
        rw [hopt] at h
        cases hg : Transaction.get tr r (specKey (.File path)) c.cid with
        | some oid =>
          simp only [hg, Except.ok.injEq, Prod.mk.injEq] at h
          rw [← h.2.1]
        | none =>
          simp only [hg] at h
          cases hap : applyF n (.File path) c.ctree with
          | error e => simp only [hap] at h; cases h
          | ok ftree =>
            simp only [hap] at h
            exact ihF (.File path) c ftree r tr x r2 tr2 h
      | PrefixOp path =>
        rw [hopt] at h
        cases hg : Transaction.get tr r (specKey (.PrefixOp path)) c.cid with
        | some oid =>
          simp only [hg, Except.ok.injEq, Prod.mk.injEq] at h
          rw [← h.2.1]
        | none =>
          simp only [hg] at h
          cases hap : applyF n (.PrefixOp path) c.ctree with
          | error e => simp only [hap] at h; cases h
          | ok ftree =>
            simp only [hap] at h
            exact ihF (.PrefixOp path) c ftree r tr x r2 tr2 h
      | Subdir path =>
        rw [hopt] at h
        cases hg : Transaction.get tr r (specKey (.Subdir path)) c.cid with
        | some oid =>
          simp only [hg, Except.ok.injEq, Prod.mk.injEq] at h
          rw [← h.2.1]
        | none =>
          simp only [hg] at h
          cases hap : applyF n (.Subdir path) c.ctree with
          | error e => simp only [hap] at h; cases h
          | ok ftree =>
            simp only [hap] at h
            exact ihF (.Subdir path) c ftree r tr x r2 tr2 h
      | Glob pat =>
        rw [hopt] at h
        cases hg : Transaction.get tr r (specKey (.Glob pat)) c.cid with
        | some oid =>
          simp only [hg, Except.ok.injEq, Prod.mk.injEq] at h
          rw [← h.2.1]
        | none =>
          simp only [hg] at h
          cases hap : applyF n (.Glob pat) c.ctree with
          | error e => simp only [hap] at h; cases h
          | ok ftree =>
            simp only [hap] at h
            exact ihF (.Glob pat) c ftree r tr x r2 tr2 h
      | Dirs =>
        rw [hopt] at h
        cases hg : Transaction.get tr r (specKey .Dirs) c.cid with
        | some oid =>
          simp only [hg, Except.ok.injEq, Prod.mk.injEq] at h
          rw [← h.2.1]
        | none =>
          simp only [hg] at h
          cases hap : applyF n .Dirs c.ctree with
          | error e => simp only [hap] at h; cases h
          | ok ftree =>
            simp only [hap] at h
            exact ihF .Dirs c ftree r tr x r2 tr2 h
    · -- composeCommits
      intro fs c r tr xs r2 tr2 h
      cases fs with
      | nil =>
        simp only [composeCommits, Except.ok.injEq, Prod.mk.injEq] at h
        rw [← h.2.1]
      | cons g rest =>
        simp only [composeCommits] at h
        cases ha : apply_to_commit2 n g c r tr with
        | error e => simp only [ha] at h; cases h
        | ok trip =>
          obtain ⟨xx, rA, trA⟩ := trip
          simp only [ha] at h
          cases hc : composeCommits n rest c rA trA with
          | error e => simp only [hc] at h; cases h
          | ok trip2 =>
            obtain ⟨ys, rB, trB⟩ := trip2
            simp only [hc, Except.ok.injEq, Prod.mk.injEq] at h
            rw [← h.2.1]
            rw [ihC rest c rA trA ys rB trB hc, ihA g c r tr xx rA trA ha]
    · -- extraParentsLoop
      intro ws cw pcs r tr xs r2 tr2 h
      cases pcs with
      | nil =>
        simp only [extraParentsLoop, Except.ok.injEq, Prod.mk.injEq] at h
        rw [← h.2.1]
      | cons pc rest =>
        simp only [extraParentsLoop] at h
        cases ha : apply_to_commit2 n
            (.Subtract cw (match parseFilter (getBlob pc.ctree (ws ++ [wsFile])) with
                           | .ok x => x
                           | .error _ => Op.Empty)) pc r tr with
        | error e => simp only [ha] at h; cases h
        | ok trip =>
          obtain ⟨xx, rA, trA⟩ := trip
          simp only [ha] at h
          cases hc : extraParentsLoop n ws cw rest rA trA with
          | error e => simp only [hc] at h; cases h
          | ok trip2 =>
            obtain ⟨ys, rB, trB⟩ := trip2
            simp only [hc, Except.ok.injEq, Prod.mk.injEq] at h
            rw [← h.2.1]
            rw [ihE ws cw rest rA trA ys rB trB hc, ihA _ pc r tr xx rA trA ha]
    · -- finishCommit
      intro f c ft r tr x r2 tr2 h
      simp only [finishCommit] at h
      cases hw : walkParents n f c.cparents r tr with
      | error e => simp only [hw] at h; cases h
      | ok trip =>
        obtain ⟨fpids, rA, trA⟩ := trip
        simp only [hw] at h
        rw [create_filtered_commit_refs c fpids ft rA trA (specKey f) x r2 tr2 h]
        exact ihP f c.cparents r tr fpids rA trA hw
    · -- walkParents
      intro f ps r tr xs r2 tr2 h
      cases ps with
      | nil =>
        simp only [walkParents, Except.ok.injEq, Prod.mk.injEq] at h
        rw [← h.2.1]
      | cons p rest =>
        simp only [walkParents] at h
        cases hw : walk2 n f p r tr with
        | error e => simp only [hw] at h; cases h
        | ok trip =>
          obtain ⟨xx, rA, trA⟩ := trip
          simp only [hw] at h
          cases hc : walkParents n f rest rA trA with
          | error e => simp only [hc] at h; cases h
          | ok trip2 =>
            obtain ⟨ys, rB, trB⟩ := trip2
            simp only [hc, Except.ok.injEq, Prod.mk.injEq] at h
            rw [← h.2.1]
            rw [ihP f rest rA trA ys rB trB hc, ihW f p r tr xx rA trA hw]
    · -- walk2
      intro f i r tr x r2 tr2 h
      simp only [walk2] at h
      cases hf : findCommit r i with
      | none =>
        simp only [hf, Except.ok.injEq, Prod.mk.injEq] at h
        rw [← h.2.1]
      | some cc =>
        simp only [hf] at h
        cases hg : Transaction.get tr r (specKey f) i with
        | some oid =>
          simp only [hg, Except.ok.injEq, Prod.mk.injEq] at h
          rw [← h.2.1]
        | none =>
          simp only [hg] at h
          cases hl : walkLoop n f (revwalkParentsFirst r i (find_known r f i tr).1) r
              { tr with walks := tr.walks + 1 } with
          | error e => simp only [hl] at h; cases h
          | ok pr =>
            obtain ⟨rA, trA⟩ := pr
            simp only [hl] at h
            have hrA := ihL f _ r { tr with walks := tr.walks + 1 } rA trA hl
            cases hf2 : findCommit rA i with
            | some c2 =>
              simp only [hf2] at h
              rw [ihA f c2 rA { trA with walks := trA.walks - 1 } x r2 tr2 h, hrA]
            | none =>
              simp only [hf2] at h
              cases h
    · -- walkLoop
      intro f l r tr r2 tr2 h
      cases l with
      | nil =>
        simp only [walkLoop, Except.ok.injEq, Prod.mk.injEq] at h
        rw [← h.1]
      | cons id rest =>
        simp only [walkLoop] at h
        cases hf : findCommit r id with
        | none => simp only [hf] at h; cases h
        | some cc =>
          simp only [hf] at h
          cases ha : apply_to_commit2 n f cc r tr with
          | error e => simp only [ha] at h; cases h
          | ok trip =>
            obtain ⟨xx, rA, trA⟩ := trip
            simp only [ha] at h
            rw [ihL f rest rA trA r2 tr2 h, ihA f cc r tr xx rA trA ha]

theorem lookupRefL_setRefL : (l : List (String × Nat)) → (d : String) → (v : Nat) →
    (name : String) → ((lookupRefL l name).isSome = true) →
    ((lookupRefL (setRefL l d v) name).isSome = true)
  | [], _, _, _, h => by simp [lookupRefL] at h
  | (m, w) :: rest, d, v, name, h => by
    simp only [lookupRefL] at h
    by_cases hmd : m = d
    · subst hmd
      simp only [setRefL, if_pos rfl, lookupRefL]
      by_cases hmn : m = name
      · simp [hmn]
      · simp only [if_neg hmn] at h ⊢
        exact h
    · simp only [setRefL, if_neg hmd, lookupRefL]
      by_cases hmn : m = name
      · simp [hmn]
      · simp only [if_neg hmn] at h ⊢
        exact lookupRefL_setRefL rest d v name h

theorem resolveRef_setRef_isSome (r : Repo) (d : String) (v : Nat) (name : String)
    (h : (resolveRef r name).isSome = true) :
    (resolveRef (setRef r d v) name).isSome = true := by
  unfold resolveRef at h
  unfold resolveRef setRef
  exact lookupRefL_setRefL r.refs d v name h

theorem resolveRef_ext (r r2 : Repo) (hrefs : r2.refs = r.refs) (name : String) :
    resolveRef r2 name = resolveRef r name := by
  unfold resolveRef
  rw [hrefs]

theorem transform_commit_preserves (n : Nat) (r : Repo) (f : Op) (src dst : String)
    (cnt : Nat) (r3 : Repo) (h : transform_commit n r f src dst = .ok (cnt, r3))
    (name : String) (hn : (resolveRef r name).isSome = true) :
    (resolveRef r3 name).isSome = true := by
  cases n with
  | zero => simp [transform_commit] at h
  | succ m =>
    simp only [transform_commit] at h
    cases hsrc : resolveRef r src with
    | none =>
      simp only [hsrc, Except.ok.injEq, Prod.mk.injEq] at h
      rw [← h.2]
      exact hn
    | some oid =>
      simp only [hsrc] at h
      cases hfc : findCommit r oid with
      | none => simp only [hfc] at h; cases h
      | some c =>
        simp only [hfc] at h
        cases ha : apply_to_commit2 m f c r Transaction.new with
        | error e => simp only [ha] at h; cases h
        | ok trip =>
          obtain ⟨fc, r2, tr2⟩ := trip
          simp only [ha, Except.ok.injEq, Prod.mk.injEq] at h
          have hrefs := (mutual_refs m).1 f c r Transaction.new fc r2 tr2 ha
          have hn2 : (resolveRef r2 name).isSome = true := by
            rw [resolveRef_ext r r2 hrefs name]
            exact hn
          rw [← h.2]
          by_cases hz : fc ≠ 0
          · rw [if_pos hz]
            exact resolveRef_setRef_isSome r2 dst fc name hn2
          · rw [if_neg hz]
            exact hn2

/-- Claim C6 (amended): `apply_filter_to_refs` processes every pair via
`transform_commit`, which (first conjunct) contributes 0 and leaves the
repo untouched when the source ref does not resolve and (second
conjunct) otherwise counts 1 exactly when the filtered id differs from
the destination ref's current target - including when the filtered id
is null, in which case the ref is NOT written, so the returned count
can exceed the number of refs actually updated (see the
counterexample); the destination ref is (force-)written exactly when
the filtered id is non-null; and (third conjunct) refs are never
deleted: every ref resolvable before `apply_filter_to_refs` is still
resolvable afterwards. -/
theorem claim_C6 :
    (∀ (n : Nat) (r : Repo) (f : Op) (src dst : String), resolveRef r src = none →
      transform_commit (n+1) r f src dst = .ok (0, r)) ∧
    (∀ (n : Nat) (r : Repo) (f : Op) (src dst : String) (oid : Nat) (c : Commit)
      (fc : Nat) (r2 : Repo) (tr2 : Transaction),
      resolveRef r src = some oid → findCommit r oid = some c →
      apply_to_commit2 n f c r Transaction.new = .ok (fc, r2, tr2) →
      transform_commit (n+1) r f src dst =
        .ok ((if fc ≠ (resolveRef r2 dst).getD 0 then 1 else 0),
             (if fc ≠ 0 then setRef r2 dst fc else r2))) ∧
    (∀ (fuel : Nat) (r : Repo) (f : Op) (pairs : List (String × String)) (cnt : Nat) (r2 : Repo),
      apply_filter_to_refs fuel r f pairs = .ok (cnt, r2) →
      ∀ name, (resolveRef r name).isSome = true → (resolveRef r2 name).isSome = true) := by
  refine ⟨?_, ?_, ?_⟩
  · intro n r f src dst h
    simp [transform_commit, h]
  · intro n r f src dst oid c fc r2 tr2 h1 h2 h3
    simp only [transform_commit, h1, h2, h3]
  · intro fuel
    induction fuel with
    | zero =>
      intro r f pairs cnt r2 h
      simp [apply_filter_to_refs] at h
    | succ m ih =>
      intro r f pairs cnt r2 h name hn
      cases pairs with
      | nil =>
        simp only [apply_filter_to_refs, Except.ok.injEq, Prod.mk.injEq] at h
        rw [← h.2]
        exact hn
      | cons kv rest =>
        obtain ⟨k, v⟩ := kv
        simp only [apply_filter_to_refs] at h
        cases ht : transform_commit m r f k v with
        | error e => simp only [ht] at h; cases h
        | ok pr =>
          obtain ⟨c1, rA⟩ := pr
          simp only [ht] at h
          cases hrest : apply_filter_to_refs m rA f rest with
          | error e => simp only [hrest] at h; cases h
          | ok pr2 =>
            obtain ⟨c2, rB⟩ := pr2
            simp only [hrest, Except.ok.injEq, Prod.mk.injEq] at h
            rw [← h.2]
            exact ih rA f rest c2 rB hrest name
              (transform_commit_preserves m r f k v c1 rA ht name hn)

def c6_n1 : Commit := ⟨1, .node (.cons "x" (.blob "b") .nil), [], "a", "a", "m"⟩

def c6_repo : Repo := ⟨[c6_n1], [("refs/src", 1), ("refs/dst", 1)], 10⟩

/-- Claim C6, counterexample to the claim as stated: filtering
`refs/src` with `Empty` yields the null id, which differs from the
current target of `refs/dst`, so the returned count is 1 - yet no ref
is updated (the destination keeps its old target; the repo is returned
completely unchanged).  The count is therefore not the number of refs
actually updated. -/
theorem claim_C6_counterexample :
    apply_filter_to_refs 30 c6_repo .Empty [("refs/src", "refs/dst")] = .ok (1, c6_repo) ∧
    resolveRef c6_repo "refs/dst" = some 1 := by
  decide

theorem claim_C6_witness :
    transform_commit 30 c6_repo .Empty "refs/src" "refs/dst" =
      .ok ((if (0 : Nat) ≠ (resolveRef c6_repo "refs/dst").getD 0 then 1 else 0),
           (if (0 : Nat) ≠ 0 then setRef c6_repo "refs/dst" 0 else c6_repo)) ∧
    (resolveRef c6_repo "refs/dst").isSome = true :=
  ⟨claim_C6.2.1 29 c6_repo .Empty "refs/src" "refs/dst" 1 c6_n1 0 c6_repo Transaction.new
     (by decide) (by decide) (by decide),
   claim_C6.2.2 30 c6_repo .Empty [("refs/src", "refs/dst")] 1 c6_repo (by decide)
     "refs/dst" (by decide)⟩

end Josh
